import Mathlib

/- Shallow embedding of the winding-number propagation core of
   libigl's src/include/igl/cgal/propagate_winding_numbers.cpp.

   The geometric collaborators (unique edge extraction, manifold patch
   decomposition, angular ordering of facets around an edge, outer facet
   determination, closest facet queries, cell extraction, connected
   components) are external to this core; they are modelled as oracle
   functions bundled in the `Oracles` structure, and the combinatorial
   core itself is translated statement by statement from the source.
   Eigen integer matrices are modelled by `Mat` (explicit row and column
   counts plus a total entry function); C++ `throw` is modelled by
   `Except String`; C++ `assert` is a no-op (release semantics); the
   diagnostic file dumps and log prints are modelled as returned data or
   dropped, since they do not feed back into the computation. -/

namespace IglWinding

/-- `std::numeric_limits<int>::max()`: the sentinel for unassigned winding
numbers in the source. -/
def INVALID : Int := 2147483647

/-- Integer matrix: an Eigen `MatrixXi` with explicit shape and a total
entry function. -/
structure Mat where
  rows : Nat
  cols : Nat
  entry : Nat → Nat → Int

def Mat.get (M : Mat) (r c : Nat) : Int := M.entry r c

def Mat.set (M : Mat) (r c : Nat) (v : Int) : Mat :=
  ⟨M.rows, M.cols, fun r' c' => if r' = r ∧ c' = c then v else M.entry r' c'⟩

/-- Eigen `resize` followed by `setConstant v`. -/
def Mat.const (rows cols : Nat) (v : Int) : Mat := ⟨rows, cols, fun _ _ => v⟩

/-- Eigen `M.row(r).setZero()`. -/
def Mat.setRowZero (M : Mat) (r : Nat) : Mat :=
  ⟨M.rows, M.cols, fun r' c' => if r' = r then 0 else M.entry r' c'⟩

/-- Eigen `M.row(dst) = M.row(src)`. -/
def Mat.copyRow (M : Mat) (dst src : Nat) : Mat :=
  ⟨M.rows, M.cols, fun r' c' => if r' = dst then M.entry src c' else M.entry r' c'⟩

/-- Eigen `M.row(r) += v`, for a row vector `v` given as a function of the
column index. -/
def Mat.addRowVec (M : Mat) (r : Nat) (v : Nat → Int) : Mat :=
  ⟨M.rows, M.cols, fun r' c' => if r' = r then M.entry r' c' + v c' else M.entry r' c'⟩

/-- A triangle: the ordered triple of vertex indices of one row of `F`. -/
abbrev Face := Nat × Nat × Nat

/-- A 3D point with exact rational coordinates (one row of `V`). -/
abbrev Vec3 := Rat × Rat × Rat

def v3add (a b : Vec3) : Vec3 := (a.1 + b.1, a.2.1 + b.2.1, a.2.2 + b.2.2)

def v3div3 (a : Vec3) : Vec3 := (a.1 / 3, a.2.1 / 3, a.2.2 / 3)

/-! ### Curve ordering adapter (source lines 126-192) -/

/-- Source lines 138-149: whether face `fi` contains the directed edge in the
orientation `d → s` (`true`) or `s → d` (`false`); `none` models the `throw`
when the edge does not belong to the face.  The six tests are performed in
the source's order. -/
def is_positively_orientated (F : List Face) (fi s d : Nat) : Option Bool :=
  let f := F.getD fi (0, 0, 0)
  if f.1 = d ∧ f.2.1 = s then some true
  else if f.2.1 = d ∧ f.2.2 = s then some true
  else if f.2.2 = d ∧ f.1 = s then some true
  else if f.1 = s ∧ f.2.1 = d then some false
  else if f.2.1 = s ∧ f.2.2 = d then some false
  else if f.2.2 = s ∧ f.1 = d then some false
  else none

/-- Source lines 151-153: `(fi+1) * (is_positively_orientated ? 1 : -1)`. -/
def compute_signed_index (F : List Face) (fi s d : Nat) : Option Int :=
  (is_positively_orientated F fi s d).map (fun b => (fi + 1 : Int) * (if b then 1 else -1))

def edge_err_msg : String := "Edge does not belong to face."

/-- Source lines 168-175: signed incident-face list of one intersection
curve; an edge that belongs to no incident face raises the runtime error of
line 147. -/
def buildAdjFaces (F : List Face) (num_faces s d : Nat) (halfedges : List Nat) :
    Except String (List Int) :=
  halfedges.mapM (fun ei =>
    match compute_signed_index F (ei % num_faces) s d with
    | some v => Except.ok v
    | none => Except.error edge_err_msg)

/-- `l[idx].push_back(v)` on a `std::vector<std::vector<size_t>>`. -/
def appendAt (l : List (List Nat)) (idx : Nat) (v : Nat) : List (List Nat) :=
  l.set idx (l.getD idx [] ++ [v])

/-- Output of the adapter loop of source lines 158-192: per curve the cyclic
patch order and orientation flags, plus the patch-to-curve adjacency. -/
structure AdapterOut where
  orders : List (List Nat)
  orients : List (List Bool)
  pca : List (List Nat)

/-- The external `igl::cgal::order_facets_around_edge` predicate:
`V F s d adj_faces ↦ cyclic permutation of the incidence indices`. -/
abbrev OrderOracle := List Vec3 → List Face → Nat → Nat → List Int → List Nat

/-- Source lines 158-192: order the patches around each intersection curve
via the external angular predicate and record, per patch, the curves it
touches.  `order'` carries patch indices (the in-place transform of line
188-191), `orients` the orientation flags computed from the untransformed
order (lines 183-187). -/
def buildAdapter (orderFacets : OrderOracle) (V : List Vec3) (F : List Face)
    (uE : List (Nat × Nat)) (uE2E : List (List Nat)) (P : List Nat)
    (num_patches : Nat) (curves : List (List Nat)) : Except String AdapterOut := do
  let num_faces := F.length
  (List.range curves.length).foldlM (fun (acc : AdapterOut) i => do
      let curve := curves.getD i []
      let uei := curve.getD 0 0
      let s := (uE.getD uei (0, 0)).1
      let d := (uE.getD uei (0, 0)).2
      let halfedges := uE2E.getD uei []
      let adj_faces ← buildAdjFaces F num_faces s d halfedges
      let pca := halfedges.foldl (fun pca ei => appendAt pca (P.getD (ei % num_faces) 0) i) acc.pca
      let order := orderFacets V F s d adj_faces
      let orientation := order.map (fun idx => decide (0 < adj_faces.getD idx 0))
      let order' := order.map (fun idx => P.getD ((adj_faces.getD idx 0).natAbs - 1) 0)
      return ⟨acc.orders ++ [order'], acc.orients ++ [orientation], pca⟩)
    ⟨[], [], List.replicate num_patches []⟩

/-! ### Patch-wise BFS propagation (source lines 194-321) -/

/-- Source lines 216-218: the whole row differs from the sentinel. -/
def winding_num_assigned (W : Mat) (p : Nat) : Bool :=
  (List.range W.cols).all (fun c => W.get p c != INVALID)

/-- The body of the per-label loop of source lines 264-284 (`cons` is
`next_cons = next_ori != curr_ori`, computed once at line 262). -/
def deriveNextStep (curr next : Nat) (cons : Bool) (next_label : Nat) (W : Mat) (i : Nat) : Mat :=
  let shared := W.get curr (2 * i)
  if i = next_label then
    let W1 := W.set next (2 * i + (if cons then 0 else 1)) shared
    W1.set next (2 * i + (if cons then 1 else 0)) (shared + (if cons then 1 else -1))
  else
    (W.set next (2 * i) shared).set next (2 * i + 1) shared

/-- Source lines 260-285: derive the winding vector of the unassigned
forward neighbor `next` from the current patch's vector. -/
def deriveNext (W : Mat) (curr next : Nat) (curr_ori next_ori : Bool)
    (next_label num_labels : Nat) : Mat :=
  (List.range num_labels).foldl (deriveNextStep curr next (next_ori != curr_ori) next_label) W

/-- The body of the per-label loop of source lines 292-311. -/
def derivePrevStep (curr prev : Nat) (cons : Bool) (prev_label : Nat) (W : Mat) (i : Nat) : Mat :=
  let shared := W.get curr (2 * i + 1)
  if i = prev_label then
    let W1 := W.set prev (2 * i + (if cons then 1 else 0)) shared
    W1.set prev (2 * i + (if cons then 0 else 1)) (shared + (if cons then -1 else 1))
  else
    (W.set prev (2 * i) shared).set prev (2 * i + 1) shared

/-- Source lines 287-314: derive the winding vector of the unassigned
backward neighbor `prev` from the current patch's vector. -/
def derivePrev (W : Mat) (curr prev : Nat) (curr_ori prev_ori : Bool)
    (prev_label num_labels : Nat) : Mat :=
  (List.range num_labels).foldl (derivePrevStep curr prev (prev_ori != curr_ori) prev_label) W

/-- The two neighbors of patch `p` along the cyclic order of one curve:
position `curr_i` is the first index holding `p` (source lines 234-241), the
forward neighbor sits at `curr_i+1` when `p`'s orientation flag is set, at
`curr_i-1` otherwise, and the backward neighbor is the opposite (source
lines 252-258). -/
def curveNeighbors (order : List Nat) (orient : List Bool) (p : Nat) : List Nat :=
  match order.findIdx? (· == p) with
  | none => []
  | some ci =>
    let n := order.length
    let cori := orient.getD ci false
    let ni := if cori then (ci + 1) % n else (ci + n - 1) % n
    let pri := if cori then (ci + n - 1) % n else (ci + 1) % n
    [order.getD ni 0, order.getD pri 0]

/-- Source lines 228-315 for one adjacent curve of the dequeued patch `p`:
derive the forward and then the backward neighbor when not yet assigned,
returning the updated matrix and the list of patches pushed on the queue. -/
def processCurve (labels : List Nat) (order : List Nat) (orient : List Bool)
    (num_labels p : Nat) (W : Mat) : Mat × List Nat :=
  match order.findIdx? (· == p) with
  | none => (W, [])
  | some ci =>
    let n := order.length
    let cori := orient.getD ci false
    let ni := if cori then (ci + 1) % n else (ci + n - 1) % n
    let pri := if cori then (ci + n - 1) % n else (ci + 1) % n
    let np := order.getD ni 0
    let pp := order.getD pri 0
    let s1 : Mat × List Nat :=
      if winding_num_assigned W np then (W, [])
      else (deriveNext W p np cori (orient.getD ni false) (labels.getD np 0) num_labels, [np])
    let s2 : Mat × List Nat :=
      if winding_num_assigned s1.1 pp then (s1.1, [])
      else (derivePrev s1.1 p pp cori (orient.getD pri false) (labels.getD pp 0) num_labels, [pp])
    (s2.1, s1.2 ++ s2.2)

/-- Source lines 227-315: process every curve adjacent to the dequeued
patch `p`, in adjacency-list order. -/
def processPatch (labels : List Nat) (orders : List (List Nat)) (orients : List (List Bool))
    (pca : List (List Nat)) (num_labels p : Nat) (W : Mat) : Mat × List Nat :=
  (pca.getD p []).foldl (fun s c =>
    let t := processCurve labels (orders.getD c []) (orients.getD c []) num_labels p s.1
    (t.1, s.2 ++ t.2)) (W, [])

/-- The FIFO queue loop of source lines 220-316, with explicit fuel (each
iteration pops one patch; a patch is pushed only while unassigned and
becomes assigned by the push, so `num_patches + 1` units of fuel always
suffice to drain the queue). -/
def bfsLoop (labels : List Nat) (orders : List (List Nat)) (orients : List (List Bool))
    (pca : List (List Nat)) (num_labels : Nat) : Nat → List Nat → Mat → Mat
  | 0, _, W => W
  | _ + 1, [], W => W
  | fuel + 1, p :: Q, W =>
    let t := processPatch labels orders orients pca num_labels p W
    bfsLoop labels orders orients pca num_labels fuel (Q ++ t.2) t.1

/-- Source lines 197-214: `patch_W` starts at the sentinel everywhere; the
row of the patch containing the outer facet is zeroed and its own label's
front (resp. back) entry is set to `-1` (resp. `1`) according to the outer
facet's flip flag. -/
def seedPatchW (num_patches num_labels outer_patch outer_label : Nat) (flipped : Bool) : Mat :=
  let W := (Mat.const num_patches (2 * num_labels) INVALID).setRowZero outer_patch
  if flipped then W.set outer_patch (2 * outer_label) (-1)
  else W.set outer_patch (2 * outer_label + 1) 1

/-- Seeding plus the queue loop (source lines 197-316). -/
def runBFS (labels : List Nat) (orders : List (List Nat)) (orients : List (List Bool))
    (pca : List (List Nat)) (num_patches num_labels outer_patch : Nat) (flipped : Bool) : Mat :=
  bfsLoop labels orders orients pca num_labels (num_patches + 1) [outer_patch]
    (seedPatchW num_patches num_labels outer_patch (labels.getD outer_patch 0) flipped)

/-- Source lines 29-64 (`propagate_winding_numbers_helper`): walk every
curve's cyclic order and check that consecutive patches agree on every
label's winding number; `num_labels` is `per_patch_winding_number.cols()/2`
as at line 35. -/
def winding_number_assignment_is_consistent (orders : List (List Nat))
    (orients : List (List Bool)) (W : Mat) : Bool :=
  (List.range orders.length).all (fun i =>
    let order := orders.getD i []
    let orientation := orients.getD i []
    (List.range order.length).all (fun j =>
      let nxt := (j + 1) % order.length
      (List.range (W.cols / 2)).all (fun k =>
        W.get (order.getD j 0) (2 * k + (if orientation.getD j false then 0 else 1)) ==
          W.get (order.getD nxt 0) (2 * k + (if orientation.getD nxt false then 1 else 0)))))

/-- The external `igl::cgal::outer_facet` collaborator:
`V F face_indices ↦ (outer facet index, is_flipped)`. -/
abbrev OuterOracle := List Vec3 → List Face → List Nat → Nat × Bool

/-- Source lines 114-321, `igl::cgal::propagate_winding_numbers_single_component_patch_wise`:
order patches around the curves, seed from the outer patch, run the BFS,
and return the per-patch winding matrix together with the consistency flag. -/
def propagate_winding_numbers_single_component_patch_wise (orderFacets : OrderOracle)
    (outerFacet : OuterOracle) (V : List Vec3) (F : List Face) (uE : List (Nat × Nat))
    (uE2E : List (List Nat)) (labels : List Nat) (P : List Nat)
    (curves : List (List Nat)) : Except String (Mat × Bool) :=
  let num_faces := F.length
  let num_patches := P.foldl max 0 + 1
  let num_labels := labels.foldl max 0 + 1
  let ofr := outerFacet V F (List.range num_faces)
  let outer_patch := P.getD ofr.1 0
  (buildAdapter orderFacets V F uE uE2E P num_patches curves).map (fun adap =>
    let W := runBFS labels adap.orders adap.orients adap.pca num_patches num_labels
      outer_patch ofr.2
    (W, winding_number_assignment_is_consistent adap.orders adap.orients W))

/-! ### The oracle bundle for the external collaborators -/

/-- The external collaborators of the core (spec section 6), as pure
oracle functions of exactly the data the source passes them. -/
structure Oracles where
  uniqueEdgeMap : List Face → List (Nat × Nat) × List (Nat × Nat) × List Nat × List (List Nat)
  extractPatches : List Face → List Nat → List (List Nat) → Nat × List Nat
  extractCurves : List Face → List Nat → List (List Nat) → List (List Nat)
  orderFacets : OrderOracle
  outerFacet : OuterOracle
  closestFacet : List Vec3 → List Face → List Vec3 → List Nat × List Bool
  triTriAdj : List (Nat × Nat) → List Nat → List (List Nat) → List (List (List Nat))
  facetComponents : List (List (List Nat)) → List Nat × List Nat
  extractCells : List Vec3 → List Face → List Nat → List (Nat × Nat) → List (Nat × Nat) →
    List (List Nat) → List Nat → Nat × Mat

/-- The sentinel as stored in a `VectorXi` of labels. -/
def INVALID_N : Nat := 2147483647

/-- Source lines 639-649 (also 948-958): per-patch label derived from the
per-face labels through `P` (first face of each patch wins; the source
asserts all faces of a patch agree). -/
def derive_patch_labels (num_patches : Nat) (P labels : List Nat) : List Nat :=
  (List.range labels.length).foldl (fun pl i =>
    if pl.getD (P.getD i 0) INVALID_N = INVALID_N then
      pl.set (P.getD i 0) (labels.getD i 0)
    else pl)
    (List.replicate num_patches INVALID_N)

/-- Source lines 659-663: expand the per-patch winding matrix to a
per-face matrix, `W.row(i) = winding_numbers.row(P[i])` after a
`setConstant(INVALID)` resize. -/
def facesFromPatches (num_faces num_labels : Nat) (pw : Mat) (P : List Nat) : Mat :=
  ⟨num_faces, 2 * num_labels, fun i c =>
    if i < num_faces ∧ c < 2 * num_labels then pw.get (P.getD i 0) c else INVALID⟩

/-- Source lines 615-667, `igl::cgal::propagate_winding_numbers_single_component`:
run the per-component decomposition collaborators, propagate patch-wise,
and expand to per-face winding vectors; returns the consistency flag. -/
def propagate_winding_numbers_single_component (O : Oracles) (V : List Vec3)
    (F : List Face) (labels : List Nat) : Except String (Mat × Bool) :=
  let num_faces := F.length
  let uem := O.uniqueEdgeMap F
  let uE := uem.2.1
  let EMAP := uem.2.2.1
  let uE2E := uem.2.2.2
  let pr := O.extractPatches F EMAP uE2E
  let num_patches := pr.1
  let P := pr.2
  let curves := O.extractCurves F EMAP uE2E
  let patch_labels := derive_patch_labels num_patches P labels
  let num_labels := patch_labels.foldl max 0 + 1
  (propagate_winding_numbers_single_component_patch_wise O.orderFacets O.outerFacet
    V F uE uE2E patch_labels P curves).map (fun r =>
      (facesFromPatches num_faces num_labels r.1 P, r.2))

/-! ### Public entry point with nesting correction (source lines 688-824) -/

def odd_edge_msg : String :=
  "Input mesh contains odd number of faces sharing a single edge"

/-- Source lines 722-726: group face indices by connected component. -/
def buildComponents (num_components num_faces : Nat) (C : List Nat) : List (List Nat) :=
  (List.range num_faces).foldl
    (fun comps i => appendAt comps (C.getD i 0) i)
    (List.replicate num_components [])

/-- Source lines 755-758: copy `Ws[i].row(j)` into the first `width`
columns of row `fid` of the full matrix. -/
def blockCopyRow (W : Mat) (fid width : Nat) (Wi : Mat) (j : Nat) : Mat :=
  ⟨W.rows, W.cols, fun r c => if r = fid ∧ c < width then Wi.get j c else W.entry r c⟩

def writeComponentRows (W : Mat) (comp : List Nat) (width : Nat) (Wi : Mat) : Mat :=
  (List.range comp.length).foldl (fun W j => blockCopyRow W (comp.getD j 0) width Wi j) W

/-- Intermediate state of `propagate_winding_numbers` after every
component's propagation has finished (source lines 694-776): the assembled
pre-correction matrix plus the data the correction phase consumes. -/
structure PrepOut where
  numComponents : Nat
  components : List (List Nat)
  compFaces : List (List Face)
  numLabels : Nat
  Wpre : Mat
  consFlags : List Bool

/-- Source lines 694-776 of `igl::cgal::propagate_winding_numbers`: the
odd-degree edge precondition has already been checked; decompose into
connected components, propagate each independently, and assemble the
per-face pre-correction matrix.  The per-component consistency flags are
only logged by the source (the `throw` at line 773 is commented out); they
are carried along here as data. -/
def prepStep (O : Oracles) (V : List Vec3) (components : List (List Nat))
    (compFaces : List (List Face)) (compLabels : List (List Nat))
    (acc : Mat × List Bool) (i : Nat) : Except String (Mat × List Bool) :=
  (propagate_winding_numbers_single_component O V (compFaces.getD i [])
    (compLabels.getD i [])).map (fun r =>
      let nli := (compLabels.getD i []).foldl max 0 + 1
      (writeComponentRows acc.1 (components.getD i []) (2 * nli) r.1, acc.2 ++ [r.2]))

def propagate_prepare (O : Oracles) (V : List Vec3) (F : List Face)
    (labels : List Nat) : Except String PrepOut :=
  let num_faces := F.length
  let uem := O.uniqueEdgeMap F
  let E := uem.1
  let EMAP := uem.2.2.1
  let uE2E := uem.2.2.2
  let TT := O.triTriAdj E EMAP uE2E
  let fc := O.facetComponents TT
  let C := fc.1
  let num_components := fc.2.length
  let components := buildComponents num_components num_faces C
  let compFaces := components.map (fun comp => comp.map (fun fid => F.getD fid (0, 0, 0)))
  let compLabels := components.map (fun comp => comp.map (fun fid => labels.getD fid 0))
  let num_labels := labels.foldl max 0 + 1
  ((List.range num_components).foldlM (prepStep O V components compFaces compLabels)
    (Mat.const num_faces (2 * num_labels) 0, [])).map (fun res =>
      ⟨num_components, components, compFaces, num_labels, res.1, res.2⟩)

/-- Source lines 778-781: the centroid of the first face of a component. -/
def sample_component (V : List Vec3) (faces : List Face) : Vec3 :=
  let f := faces.getD 0 (0, 0, 0)
  v3div3 (v3add (v3add (V.getD f.1 (0, 0, 0)) (V.getD f.2.1 (0, 0, 0))) (V.getD f.2.2 (0, 0, 0)))

/-- Source lines 788-795: the sample points handed to `closest_facet` for
component `i`: the centroids of every other component's first face, at row
`index_without_i(j)`. -/
def samplesFor (V : List Vec3) (compFaces : List (List Face)) (num_components i : Nat) :
    List Vec3 :=
  ((List.range num_components).filter (fun j => j ≠ i)).map
    (fun j => sample_component V (compFaces.getD j []))

/-- Source lines 808-812: the inner accumulation over the labels for one
ordered component pair. -/
def ambientStepK (corrOf : Nat → Int) (j : Nat) (amb : Mat) (k : Nat) : Mat :=
  let corr := corrOf k
  ((amb.set j (2 * k) (amb.get j (2 * k) + corr)).set j (2 * k + 1)
    (amb.get j (2 * k + 1) + corr))

/-- The value read at source line 809 for ordered pair `(i, j)` and label
`k`: entry of the pre-correction matrix at the face of component `i`
returned by the containment query for component `j`'s sample, on the side
selected by the orientation flag. -/
def ambientContrib (O : Oracles) (V : List Vec3) (components : List (List Nat))
    (compFaces : List (List Face)) (Wpre : Mat) (num_components i j k : Nat) : Int :=
  let q := O.closestFacet V (compFaces.getD i []) (samplesFor V compFaces num_components i)
  let idx := if j < i then j else j - 1
  let fid := q.1.getD idx 0
  let ori := q.2.getD idx false
  Wpre.get ((components.getD i []).getD fid 0) (2 * k + (if ori then 0 else 1))

/-- Source lines 803-813: accumulate, for fixed querying component `i`, the
ambient corrections of every other component `j`. -/
def ambientStepI (O : Oracles) (V : List Vec3) (components : List (List Nat))
    (compFaces : List (List Face)) (Wpre : Mat) (num_components num_labels : Nat)
    (amb : Mat) (i : Nat) : Mat :=
  (List.range num_components).foldl (fun amb j =>
    if i = j then amb
    else (List.range num_labels).foldl
      (ambientStepK (ambientContrib O V components compFaces Wpre num_components i j) j) amb)
    amb

/-- Source lines 783-815: the ambient correction matrix (zero when there is
a single component, since the loop is guarded by `num_components > 1`). -/
def ambientCorrection (O : Oracles) (V : List Vec3) (components : List (List Nat))
    (compFaces : List (List Face)) (Wpre : Mat) (num_components num_labels : Nat) : Mat :=
  let amb0 := Mat.const num_components (2 * num_labels) 0
  if 1 < num_components then
    (List.range num_components).foldl
      (ambientStepI O V components compFaces Wpre num_components num_labels) amb0
  else amb0

/-- Source lines 817-823: add each component's accumulated correction to
every one of its faces' rows. -/
def applyCorrection (components : List (List Nat)) (amb : Mat) (W : Mat) : Mat :=
  (List.range components.length).foldl (fun W i =>
    (components.getD i []).foldl (fun W fid => W.addRowVec fid (fun c => amb.get i c)) W) W

/-- Source lines 688-824, `igl::cgal::propagate_winding_numbers` (the
core's public entry point): check the odd-degree edge precondition, then
propagate per component and apply the nesting correction.  The C++
function returns `void` and writes `W` through an output parameter; here
the final matrix is the `Except.ok` payload. -/
def propagate_winding_numbers (O : Oracles) (V : List Vec3) (F : List Face)
    (labels : List Nat) : Except String Mat :=
  if ((O.uniqueEdgeMap F).2.2.2).any (fun l => l.length % 2 == 1) then
    Except.error odd_edge_msg
  else
    (propagate_prepare O V F labels).map (fun pre =>
      applyCorrection pre.components
        (ambientCorrection O V pre.components pre.compFaces pre.Wpre
          pre.numComponents pre.numLabels)
        pre.Wpre)

/-! ### Cell-wise propagation: `propagate_winding_numbers_beta`
(source lines 831-1006) -/

/-- One annotated edge of the cell adjacency multigraph:
`(neighbor cell, direction, patch)`; direction `true` means the edge
crosses its patch from the back (negative) cell to the front (positive)
cell (source lines 852-859). -/
abbrev CellEdge := Nat × Bool × Nat

/-- Lexicographic order on the `std::set<std::tuple<size_t,bool,size_t>>`
elements (`false < true` on `bool`). -/
def cellEdgeLe (a b : CellEdge) : Prop :=
  a.1 < b.1 ∨ (a.1 = b.1 ∧ (a.2.1 = false ∧ b.2.1 = true ∨ (a.2.1 = b.2.1 ∧ a.2.2 ≤ b.2.2)))

instance : DecidableRel cellEdgeLe := fun a b => by
  unfold cellEdgeLe; infer_instance

/-- Source lines 852-859: the cell adjacency sets, one sorted list of
annotated edges per cell (`std::set` iterates in sorted order; the tuples
inserted for distinct patches are distinct, so sorting the insertion list
and removing duplicates reproduces the set's iteration order). -/
def buildCellAdjacency (num_cells num_patches : Nat) (ppc : Mat) : List (List CellEdge) :=
  (List.range num_cells).map (fun c =>
    let raw := (List.range num_patches).foldl (fun acc i =>
      let pos := (ppc.get i 0).toNat
      let neg := (ppc.get i 1).toNat
      let acc := if pos = c then acc ++ [(neg, false, i)] else acc
      if neg = c then acc ++ [(pos, true, i)] else acc) []
    (raw.insertionSort cellEdgeLe).dedup)

/-- Source lines 891-898: follow the `parents` pointers from `idx` to the
BFS root (which points to itself); the fuel bounds the chain length. -/
def traceParents (parents : List Int) : Nat → Nat → List Nat
  | 0, idx => [idx]
  | fuel + 1, idx =>
    if parents.getD idx (-1) = (idx : Int) then [idx]
    else idx :: traceParents parents fuel (parents.getD idx (-1)).toNat

/-- State of the odd-cycle two-coloring check: colors (0 = uncolored,
otherwise plus or minus 1), parent pointers, and the conflict paths
recorded so far. -/
structure CheckState where
  colors : List Int
  parents : List Int
  conflicts : List (List Nat)

/-- Source lines 909-932, handling of one adjacency edge during the
two-coloring BFS: color an uncolored neighbor with the opposite color and
enqueue it; on a neighbor already holding the same color, record the traced
odd cycle (the reversed parent chain of the current cell followed by the
neighbor's parent chain); a correctly colored neighbor is left alone.
Returns the new state and the list of cells pushed. -/
def colorNeighbor (num_cells : Nat) (curr : Nat) (curr_label : Int) (st : CheckState)
    (e : CellEdge) : CheckState × List Nat :=
  let nb := e.1
  if st.colors.getD nb 0 = 0 then
    (⟨st.colors.set nb (curr_label * -1), st.parents.set nb (curr : Int), st.conflicts⟩, [nb])
  else if st.colors.getD nb 0 ≠ curr_label * -1 then
    (⟨st.colors, st.parents,
      st.conflicts ++ [(traceParents st.parents num_cells curr).reverse ++
        traceParents st.parents num_cells nb]⟩, [])
  else (st, [])

/-- Source lines 905-934: the inner BFS of the two-coloring check. -/
def checkLoop (adj : List (List CellEdge)) (num_cells : Nat) :
    Nat → List Nat → CheckState → CheckState
  | 0, _, st => st
  | _ + 1, [], st => st
  | fuel + 1, curr :: Q, st =>
    let curr_label := st.colors.getD curr 0
    let t := (adj.getD curr []).foldl
      (fun (s : CheckState × List Nat) e =>
        let u := colorNeighbor num_cells curr curr_label s.1 e
        (u.1, s.2 ++ u.2)) (st, [])
    checkLoop adj num_cells fuel (Q ++ t.2) t.1

/-- Source lines 886-936: the full odd-cycle check — a two-coloring
BFS started from every not-yet-colored cell; returns the final colors and
every recorded odd-cycle path.  The source reports each conflict on
`stderr` and dumps the cells of the traced path to `.ply` files; that
diagnostic output is modelled by the returned `conflicts` list, and the
computation continues past every conflict. -/
def oddCycleCheck (adj : List (List CellEdge)) (num_cells : Nat) : CheckState :=
  (List.range num_cells).foldl (fun st i =>
    if st.colors.getD i 0 = 0 then
      checkLoop adj num_cells (num_cells + 1) [i]
        ⟨st.colors.set i 1, st.parents.set i (i : Int), st.conflicts⟩
    else st)
    ⟨List.replicate num_cells 0, List.replicate num_cells (-1), []⟩

/-- Source lines 973-980: assign a newly reached cell the source cell's
vector, with the crossed patch's label decremented when the crossing
direction flag is set and incremented otherwise, all other labels copied. -/
def cellDerive (W : Mat) (curr nb : Nat) (direction : Bool) (plabel num_labels : Nat) : Mat :=
  (List.range num_labels).foldl (fun W i =>
    let inc : Int := if plabel = i then (if direction then -1 else 1) else 0
    W.set nb i (W.get curr i + inc)) (W.copyRow nb curr)

/-- Source line 973: the guard `(per_cell_W.row(nb).array() == INVALID).any()`. -/
def cellRowUnassigned (W : Mat) (r : Nat) : Bool :=
  (List.range W.cols).any (fun c => W.get r c == INVALID)

/-- Source lines 969-993, handling of one adjacency edge during the
cell-wise winding loop: a neighbor whose row still contains the sentinel
is derived from the current cell; an already assigned neighbor is only
inspected by `assert`s (no-ops in release).  The loop body contains no
`Q.push`, so no queue entries are produced here. -/
def processCellNeighbor (patch_labels : List Nat) (num_labels curr : Nat) (W : Mat)
    (e : CellEdge) : Mat :=
  let nb := e.1
  let direction := e.2.1
  let patch_idx := e.2.2
  if cellRowUnassigned W nb then
    cellDerive W curr nb direction (patch_labels.getD patch_idx 0) num_labels
  else W

/-- Source lines 964-994: the cell-wise queue loop.  Unlike the
two-coloring check's BFS (line 912), this loop's body never pushes onto
`Q` — the seed of line 965 is the only push between lines 964 and 994 —
so each iteration only consumes the queue and the loop processes exactly
the cells of the initial queue. -/
def cellBfsLoop (adj : List (List CellEdge)) (patch_labels : List Nat) (num_labels : Nat) :
    Nat → List Nat → Mat → Mat
  | 0, _, W => W
  | _ + 1, [], W => W
  | fuel + 1, curr :: Q, W =>
    cellBfsLoop adj patch_labels num_labels fuel Q
      ((adj.getD curr []).foldl (processCellNeighbor patch_labels num_labels curr) W)

/-- Source line 946: the cell on the outer side of the globally outer
facet. -/
def infinityCell (ppc : Mat) (outer_patch : Nat) (flipped : Bool) : Nat :=
  (ppc.get outer_patch (if flipped then 1 else 0)).toNat

/-- Source lines 961-963: per-cell winding matrix seeded at the infinity
cell. -/
def seedCellW (num_cells num_labels ic : Nat) : Mat :=
  (Mat.const num_cells num_labels INVALID).setRowZero ic

/-- Source lines 996-1005: read the per-face output off the per-cell
vectors: column `2j` from the patch's front (positive) cell, column `2j+1`
from its back (negative) cell. -/
def readoffW (num_faces num_labels : Nat) (P : List Nat) (ppc : Mat) (cellW : Mat) : Mat :=
  ⟨num_faces, 2 * num_labels, fun i c =>
    if i < num_faces ∧ c < 2 * num_labels then
      cellW.get ((ppc.get (P.getD i 0) (c % 2)).toNat) (c / 2)
    else 0⟩

/-- Source lines 831-1006, `igl::cgal::propagate_winding_numbers_beta`:
the cell-wise propagator.  The odd-cycle check runs first (its result is
pure diagnostics and feeds nothing downstream), then the cell BFS from the
infinity cell, then the per-face readoff. -/
def propagate_winding_numbers_beta (O : Oracles) (V : List Vec3) (F : List Face)
    (labels : List Nat) : Mat :=
  let num_faces := F.length
  let uem := O.uniqueEdgeMap F
  let E := uem.1
  let uE := uem.2.1
  let EMAP := uem.2.2.1
  let uE2E := uem.2.2.2
  let pr := O.extractPatches F EMAP uE2E
  let num_patches := pr.1
  let P := pr.2
  let ce := O.extractCells V F P E uE uE2E EMAP
  let num_cells := ce.1
  let ppc := ce.2
  let adj := buildCellAdjacency num_cells num_patches ppc
  let _diag := oddCycleCheck adj num_cells
  let ofr := O.outerFacet V F (List.range num_faces)
  let outer_patch := P.getD ofr.1 0
  let ic := infinityCell ppc outer_patch ofr.2
  let patch_labels := derive_patch_labels num_patches P labels
  let num_labels := patch_labels.foldl max 0 + 1
  let cellW := cellBfsLoop adj patch_labels num_labels (num_cells + 1) [ic]
    (seedCellW num_cells num_labels ic)
  readoffW num_faces num_labels P ppc cellW

/-- `propagate_winding_numbers_beta` with the odd-cycle check omitted:
used to state that the diagnostic check does not influence the produced
per-face result. -/
def propagate_winding_numbers_beta_unchecked (O : Oracles) (V : List Vec3) (F : List Face)
    (labels : List Nat) : Mat :=
  let num_faces := F.length
  let uem := O.uniqueEdgeMap F
  let E := uem.1
  let uE := uem.2.1
  let EMAP := uem.2.2.1
  let uE2E := uem.2.2.2
  let pr := O.extractPatches F EMAP uE2E
  let num_patches := pr.1
  let P := pr.2
  let ce := O.extractCells V F P E uE uE2E EMAP
  let num_cells := ce.1
  let ppc := ce.2
  let adj := buildCellAdjacency num_cells num_patches ppc
  let ofr := O.outerFacet V F (List.range num_faces)
  let outer_patch := P.getD ofr.1 0
  let ic := infinityCell ppc outer_patch ofr.2
  let patch_labels := derive_patch_labels num_patches P labels
  let num_labels := patch_labels.foldl max 0 + 1
  let cellW := cellBfsLoop adj patch_labels num_labels (num_cells + 1) [ic]
    (seedCellW num_cells num_labels ic)
  readoffW num_faces num_labels P ppc cellW

/-! ### Observation helpers and concrete instances -/

/-- Entry of an `Except`-wrapped matrix (a fixed junk value on errors). -/
def exGet (e : Except String Mat) (r c : Nat) : Int :=
  match e with
  | Except.ok M => M.get r c
  | Except.error _ => 123456789

def exIsOk (e : Except String Mat) : Bool :=
  match e with
  | Except.ok _ => true
  | Except.error _ => false

/-- The consistency flag of a single-component result, when it succeeded. -/
def sndFlag (e : Except String (Mat × Bool)) : Option Bool :=
  match e with
  | Except.ok r => some r.2
  | Except.error _ => none

/-- Concrete mesh 1: four faces, all containing the edge `{0,1}` positively
oriented, a single intersection curve with all four patches around it.
With the identity angular order and all orientation flags equal, the cyclic
closure fails, so the patch-wise propagation is inconsistent. -/
def F1 : List Face := [(1, 0, 2), (1, 0, 3), (1, 0, 4), (1, 0, 5)]

def V1 : List Vec3 := List.replicate 6 (0, 0, 0)

def labels1 : List Nat := [0, 0, 0, 0]

def O1 : Oracles where
  uniqueEdgeMap := fun _ => ([], [(0, 1)], [0, 0, 0, 0, 0, 0, 0, 0, 0, 0, 0, 0], [[0, 1, 2, 3]])
  extractPatches := fun _ _ _ => (4, [0, 1, 2, 3])
  extractCurves := fun _ _ _ => [[0]]
  orderFacets := fun _ _ _ _ adj => List.range adj.length
  outerFacet := fun _ _ _ => (0, false)
  closestFacet := fun _ _ samples =>
    (List.replicate samples.length 0, List.replicate samples.length false)
  triTriAdj := fun _ _ _ => []
  facetComponents := fun _ => ([0, 0, 0, 0], [4])
  extractCells := fun _ _ _ _ _ _ _ => (2, ⟨1, 2, fun _ c => if c = 0 then 0 else 1⟩)

/-- Concrete mesh 2: two disjoint one-face components with labels 0 and 1;
the containment oracle reports component 0's sample inside component 1
(back side) and component 1's sample outside component 0, exercising the
nesting correction. -/
def F2 : List Face := [(0, 1, 2), (3, 4, 5)]

def V2 : List Vec3 :=
  [(0, 0, 0), (1, 0, 0), (0, 1, 0), (5, 5, 5), (6, 5, 5), (5, 6, 5)]

def labels2 : List Nat := [0, 1]

def O2 : Oracles where
  uniqueEdgeMap := fun _ => ([], [], [], [])
  extractPatches := fun _ _ _ => (1, [0])
  extractCurves := fun _ _ _ => []
  orderFacets := fun _ _ _ _ adj => List.range adj.length
  outerFacet := fun _ _ _ => (0, false)
  closestFacet := fun _ faces _ =>
    if faces = [((0 : Nat), (1 : Nat), (2 : Nat))] then ([0], [true]) else ([0], [false])
  triTriAdj := fun _ _ _ => []
  facetComponents := fun _ => ([0, 1], [1, 1])
  extractCells := fun _ _ _ _ _ _ _ => (2, ⟨1, 2, fun _ c => if c = 0 then 0 else 1⟩)

/-- Concrete mesh 3: a single closed patch separating two cells (cell 0
outside, cell 1 inside), for the cell-wise propagator. -/
def F3 : List Face := [(0, 1, 2)]

def labels3 : List Nat := [0]

def O3 : Oracles where
  uniqueEdgeMap := fun _ => ([], [], [], [])
  extractPatches := fun _ _ _ => (1, [0])
  extractCurves := fun _ _ _ => []
  orderFacets := fun _ _ _ _ adj => List.range adj.length
  outerFacet := fun _ _ _ => (0, false)
  closestFacet := fun _ _ samples =>
    (List.replicate samples.length 0, List.replicate samples.length false)
  triTriAdj := fun _ _ _ => []
  facetComponents := fun _ => ([0], [1])
  extractCells := fun _ _ _ _ _ _ _ => (2, ⟨1, 2, fun _ c => if c = 0 then 0 else 1⟩)

/-- Mesh 1 with a degenerate unique-edge map: one unique edge with a single
incident half-edge (odd degree, e.g. an open boundary). -/
def Oodd : Oracles := { O1 with uniqueEdgeMap := fun _ => ([], [(0, 1)], [], [[0]]) }

/-- Concrete mesh 4: two nested closed patches separating three cells in a
chain — cell 0 (outside, the infinity cell) | patch 0 | cell 1 | patch 1 |
cell 2 (innermost).  Face 0 lies on patch 0, face 1 on patch 1. -/
def F4 : List Face := [(0, 1, 2), (3, 4, 5)]

def labels4 : List Nat := [0, 0]

def O4 : Oracles where
  uniqueEdgeMap := fun _ => ([], [], [], [])
  extractPatches := fun _ _ _ => (2, [0, 1])
  extractCurves := fun _ _ _ => []
  orderFacets := fun _ _ _ _ adj => List.range adj.length
  outerFacet := fun _ _ _ => (0, false)
  closestFacet := fun _ _ samples =>
    (List.replicate samples.length 0, List.replicate samples.length false)
  triTriAdj := fun _ _ _ => []
  facetComponents := fun _ => ([0, 0], [2])
  extractCells := fun _ _ _ _ _ _ _ =>
    (3, ⟨2, 2, fun r c => if r = 0 then (if c = 0 then 0 else 1)
      else (if c = 0 then 1 else 2)⟩)

/-- One step of the patch neighborhood relation the BFS explores: `q` is
the forward or backward neighbor of `p` along some curve adjacent to `p`. -/
def stepRel (orders : List (List Nat)) (orients : List (List Bool)) (pca : List (List Nat))
    (p q : Nat) : Prop :=
  ∃ c ∈ pca.getD p [], q ∈ curveNeighbors (orders.getD c []) (orients.getD c []) p

/-- Reachability of a patch from the outer patch through the
intersection-curve orderings. -/
def ReachableP (orders : List (List Nat)) (orients : List (List Bool))
    (pca : List (List Nat)) (outer p : Nat) : Prop :=
  Relation.ReflTransGen (stepRel orders orients pca) outer p

/-- Number of patches among the first `N` whose winding vector is not yet
fully assigned. -/
def ucount (W : Mat) (N : Nat) : Nat :=
  ((Finset.range N).filter (fun p => winding_num_assigned W p = false)).card

/-- The pre-correction matrix assembled for mesh 2 (component 0 = patch of
label 0, component 1 = patch of label 1), written out literally. -/
def Wpre2 : Mat :=
  ⟨2, 4, fun r c => if r = 0 ∧ c = 1 then 1 else if r = 1 ∧ c = 3 then 1 else 0⟩

/-- Entry of the pre-correction matrix of an `Except`-wrapped preparation
result (junk on errors). -/
def preWpreGet (e : Except String PrepOut) (r c : Nat) : Int :=
  match e with
  | Except.ok p => p.Wpre.get r c
  | Except.error _ => 123456789

/-- Rows whose entries stay clear of the sentinel and its two neighbors
can be propagated from without ever producing the sentinel. -/
def rowSafe (W : Mat) (p : Nat) : Prop :=
  ∀ c < W.cols, W.get p c ≠ INVALID ∧ W.get p c + 1 ≠ INVALID ∧ W.get p c - 1 ≠ INVALID

instance (W : Mat) (p : Nat) : Decidable (rowSafe W p) := by
  unfold rowSafe; infer_instance

/-- Specification of one derivation burst of the patch-wise BFS relating
the matrix before (`W`) and after (`W1`) with the list `pc` of patches
pushed: shape preserved, rows off `pc` untouched, every pushed patch was
unassigned and is now fully assigned and in range, no duplicates, and the
count-linked value bound is maintained. -/
def PCSpec (N L : Nat) (W W1 : Mat) (pc : List Nat) : Prop :=
  W1.cols = W.cols ∧
  (∀ r c, r ∉ pc → W1.get r c = W.get r c) ∧
  (∀ q ∈ pc, winding_num_assigned W q = false ∧
    winding_num_assigned W1 q = true ∧ q < N) ∧
  pc.Nodup ∧
  (∀ r, winding_num_assigned W1 r = true → ∀ c < 2 * L,
    W1.get r c ≤ (N : Int) + 1 - ucount W1 N)

/-! ## Theorems -/

/-! ### Basic matrix lemmas -/

theorem Mat.get_set (M : Mat) (r c : Nat) (v : Int) (r' c' : Nat) :
    (M.set r c v).get r' c' = if r' = r ∧ c' = c then v else M.get r' c' := rfl

theorem Mat.get_set_ne_row (M : Mat) (r c : Nat) (v : Int) (r' c' : Nat) (h : r' ≠ r) :
    (M.set r c v).get r' c' = M.get r' c' := by
  simp [Mat.get_set, h]

theorem Mat.cols_set (M : Mat) (r c : Nat) (v : Int) : (M.set r c v).cols = M.cols := rfl

theorem Mat.rows_set (M : Mat) (r c : Nat) (v : Int) : (M.set r c v).rows = M.rows := rfl

theorem Mat.get_const (rows cols : Nat) (v : Int) (r c : Nat) :
    (Mat.const rows cols v).get r c = v := rfl

theorem Mat.get_setRowZero (M : Mat) (r r' c' : Nat) :
    (M.setRowZero r).get r' c' = if r' = r then 0 else M.get r' c' := rfl

theorem Mat.get_addRowVec (M : Mat) (r : Nat) (v : Nat → Int) (r' c' : Nat) :
    (M.addRowVec r v).get r' c' = if r' = r then M.get r' c' + v c' else M.get r' c' := rfl

theorem Mat.get_copyRow (M : Mat) (dst src r' c' : Nat) :
    (M.copyRow dst src).get r' c' = if r' = dst then M.get src c' else M.get r' c' := rfl

/-- `winding_num_assigned` unfolded to a proposition. -/
theorem winding_num_assigned_iff (W : Mat) (p : Nat) :
    winding_num_assigned W p = true ↔ ∀ c < W.cols, W.get p c ≠ INVALID := by
  simp [winding_num_assigned, List.all_eq_true, List.mem_range, bne_iff_ne]

theorem winding_num_assigned_eq_false (W : Mat) (p : Nat) :
    winding_num_assigned W p = false ↔ ∃ c < W.cols, W.get p c = INVALID := by
  rw [← Bool.not_eq_true, winding_num_assigned_iff]
  push_neg
  rfl

/-- Claim C5: in the patch-wise propagator, the patch containing the
externally designated outer face is seeded with the all-zero winding
vector except its own label's (front, back) pair, which is `(-1, 0)` when
the outer face's flip flag is set and `(0, 1)` otherwise, while every
other patch's row starts entirely at the `INVALID` sentinel; and
`propagate_winding_numbers_single_component_patch_wise` starts its BFS
from exactly this matrix, seeded at the patch `P[outer facet]` designated
by the external outer-facet oracle. -/
theorem claim_C5 (num_patches num_labels outer_patch outer_label : Nat) (flipped : Bool) :
    (∀ c < 2 * num_labels,
      (seedPatchW num_patches num_labels outer_patch outer_label flipped).get outer_patch c =
        if flipped ∧ c = 2 * outer_label then -1
        else if ¬flipped ∧ c = 2 * outer_label + 1 then 1 else 0) ∧
    (∀ r, r ≠ outer_patch → ∀ c,
      (seedPatchW num_patches num_labels outer_patch outer_label flipped).get r c = INVALID) ∧
    (∀ (orderFacets : OrderOracle) (outerFacet : OuterOracle) V F uE uE2E labels P curves ad,
      buildAdapter orderFacets V F uE uE2E P (P.foldl max 0 + 1) curves = Except.ok ad →
      propagate_winding_numbers_single_component_patch_wise orderFacets outerFacet
          V F uE uE2E labels P curves =
        Except.ok (
          bfsLoop labels ad.orders ad.orients ad.pca (labels.foldl max 0 + 1)
            (P.foldl max 0 + 1 + 1)
            [P.getD (outerFacet V F (List.range F.length)).1 0]
            (seedPatchW (P.foldl max 0 + 1) (labels.foldl max 0 + 1)
              (P.getD (outerFacet V F (List.range F.length)).1 0)
              (labels.getD (P.getD (outerFacet V F (List.range F.length)).1 0) 0)
              (outerFacet V F (List.range F.length)).2),
          winding_number_assignment_is_consistent ad.orders ad.orients
            (bfsLoop labels ad.orders ad.orients ad.pca (labels.foldl max 0 + 1)
              (P.foldl max 0 + 1 + 1)
              [P.getD (outerFacet V F (List.range F.length)).1 0]
              (seedPatchW (P.foldl max 0 + 1) (labels.foldl max 0 + 1)
                (P.getD (outerFacet V F (List.range F.length)).1 0)
                (labels.getD (P.getD (outerFacet V F (List.range F.length)).1 0) 0)
                (outerFacet V F (List.range F.length)).2)))) := by
  refine ⟨?_, ?_, ?_⟩
  · intro c _hc
    cases flipped <;>
      simp only [seedPatchW, Bool.false_eq_true, Bool.true_eq_false, if_true, if_false,
        ite_true, ite_false, Mat.get_set, Mat.get_setRowZero, Mat.get_const] <;>
    split_ifs <;> simp_all
  · intro r hr c
    cases flipped <;>
      simp [seedPatchW, Mat.get_set, Mat.get_setRowZero, Mat.get_const, hr]
  · intro orderFacets outerFacet V F uE uE2E labels P curves ad had
    simp only [propagate_winding_numbers_single_component_patch_wise, had, runBFS,
      Except.map]

/-- Witness for C5: the seed of mesh 1 (outer patch 0, label 0, not
flipped) is `(0, 1)` on the outer row and `INVALID` elsewhere. -/
theorem claim_C5_witness :
    (seedPatchW 4 1 0 0 false).get 0 0 = 0 ∧
    (seedPatchW 4 1 0 0 false).get 0 1 = 1 ∧
    (seedPatchW 4 1 0 0 false).get 1 0 = INVALID := by
  have h := claim_C5 4 1 0 0 false
  refine ⟨?_, ?_, ?_⟩
  · have := h.1 0 (by decide)
    simpa using this
  · have := h.1 1 (by decide)
    simpa using this
  · exact h.2.1 1 (by decide) 0

/-! ### Properties of the neighbor derivation steps -/

theorem deriveNextStep_get_other (curr np : Nat) (cons : Bool) (nl : Nat) (W : Mat)
    (i r c : Nat) (h : r ≠ np) : (deriveNextStep curr np cons nl W i).get r c = W.get r c := by
  by_cases hi : i = nl <;> simp [deriveNextStep, hi, Mat.get_set, h]

theorem deriveNextStep_get_other_col (curr np : Nat) (cons : Bool) (nl : Nat) (W : Mat)
    (i r c : Nat) (h1 : c ≠ 2 * i) (h2 : c ≠ 2 * i + 1) :
    (deriveNextStep curr np cons nl W i).get r c = W.get r c := by
  by_cases hi : i = nl
  · subst hi; cases cons <;> simp [deriveNextStep, Mat.get_set, h1, h2]
  · cases cons <;> simp [deriveNextStep, hi, Mat.get_set, h1, h2]

theorem deriveNextStep_cols (curr np : Nat) (cons : Bool) (nl : Nat) (W : Mat) (i : Nat) :
    (deriveNextStep curr np cons nl W i).cols = W.cols := by
  by_cases hi : i = nl <;> simp [deriveNextStep, hi, Mat.cols_set]

theorem deriveNextFold_get_other (curr np : Nat) (cons : Bool) (nl : Nat) (W : Mat)
    (m r c : Nat) (h : r ≠ np) :
    (((List.range m).foldl (deriveNextStep curr np cons nl) W).get r c) = W.get r c := by
  induction m with
  | zero => rfl
  | succ m ih =>
    rw [List.range_succ, List.foldl_append, List.foldl_cons, List.foldl_nil,
      deriveNextStep_get_other _ _ _ _ _ _ _ _ h, ih]

theorem deriveNextFold_cols (curr np : Nat) (cons : Bool) (nl : Nat) (W : Mat) (m : Nat) :
    ((List.range m).foldl (deriveNextStep curr np cons nl) W).cols = W.cols := by
  induction m with
  | zero => rfl
  | succ m ih =>
    rw [List.range_succ, List.foldl_append, List.foldl_cons, List.foldl_nil,
      deriveNextStep_cols, ih]

/-- The values the forward derivation writes into the neighbor's row:
labels other than the neighbor's own get the source patch's front value on
both sides; the neighbor's own label gets the front value on the side
selected by `cons` and the front value shifted by `cons ? +1 : -1` on the
other side. -/
theorem deriveNextFold_get_np (curr np : Nat) (cons : Bool) (nl : Nat) (W : Mat)
    (hne : np ≠ curr) (m : Nat) :
    ∀ i < m,
      (i ≠ nl →
        ((List.range m).foldl (deriveNextStep curr np cons nl) W).get np (2 * i) =
          W.get curr (2 * i) ∧
        ((List.range m).foldl (deriveNextStep curr np cons nl) W).get np (2 * i + 1) =
          W.get curr (2 * i)) ∧
      (i = nl →
        ((List.range m).foldl (deriveNextStep curr np cons nl) W).get np
            (2 * i + (if cons then 0 else 1)) = W.get curr (2 * i) ∧
        ((List.range m).foldl (deriveNextStep curr np cons nl) W).get np
            (2 * i + (if cons then 1 else 0)) =
          W.get curr (2 * i) + (if cons then 1 else -1)) := by
  induction m with
  | zero => intro i hi; omega
  | succ m ih =>
    intro i hi
    rw [List.range_succ, List.foldl_append, List.foldl_cons, List.foldl_nil]
    rcases Nat.lt_or_ge i m with him | him
    · have h1 : ∀ c, c ≠ 2 * m → c ≠ 2 * m + 1 →
          (deriveNextStep curr np cons nl ((List.range m).foldl
            (deriveNextStep curr np cons nl) W) m).get np c =
          ((List.range m).foldl (deriveNextStep curr np cons nl) W).get np c := by
        intro c hc1 hc2
        exact deriveNextStep_get_other_col _ _ _ _ _ _ _ _ hc1 hc2
      constructor
      · intro hinl
        constructor
        · rw [h1 _ (by omega) (by omega)]; exact ((ih i him).1 hinl).1
        · rw [h1 _ (by omega) (by omega)]; exact ((ih i him).1 hinl).2
      · intro hinl
        constructor
        · rw [h1 _ (by cases cons <;> simp <;> omega) (by cases cons <;> simp <;> omega)]
          exact ((ih i him).2 hinl).1
        · rw [h1 _ (by cases cons <;> simp <;> omega) (by cases cons <;> simp <;> omega)]
          exact ((ih i him).2 hinl).2
    · have hieq : i = m := by omega
      subst hieq
      have hcurr : ((List.range i).foldl (deriveNextStep curr np cons nl) W).get curr (2 * i) =
          W.get curr (2 * i) :=
        deriveNextFold_get_other _ _ _ _ _ _ _ _ (Ne.symm hne)
      constructor
      · intro hinl
        cases cons <;>
          simp [deriveNextStep, hinl, Mat.get_set, hcurr]
      · intro hinl
        subst hinl
        cases cons <;>
          simp [deriveNextStep, Mat.get_set, hcurr]

theorem derivePrevStep_get_other (curr pp : Nat) (cons : Bool) (pl : Nat) (W : Mat)
    (i r c : Nat) (h : r ≠ pp) : (derivePrevStep curr pp cons pl W i).get r c = W.get r c := by
  by_cases hi : i = pl <;> simp [derivePrevStep, hi, Mat.get_set, h]

theorem derivePrevStep_get_other_col (curr pp : Nat) (cons : Bool) (pl : Nat) (W : Mat)
    (i r c : Nat) (h1 : c ≠ 2 * i) (h2 : c ≠ 2 * i + 1) :
    (derivePrevStep curr pp cons pl W i).get r c = W.get r c := by
  by_cases hi : i = pl
  · subst hi; cases cons <;> simp [derivePrevStep, Mat.get_set, h1, h2]
  · cases cons <;> simp [derivePrevStep, hi, Mat.get_set, h1, h2]

theorem derivePrevStep_cols (curr pp : Nat) (cons : Bool) (pl : Nat) (W : Mat) (i : Nat) :
    (derivePrevStep curr pp cons pl W i).cols = W.cols := by
  by_cases hi : i = pl <;> simp [derivePrevStep, hi, Mat.cols_set]

theorem derivePrevFold_get_other (curr pp : Nat) (cons : Bool) (pl : Nat) (W : Mat)
    (m r c : Nat) (h : r ≠ pp) :
    (((List.range m).foldl (derivePrevStep curr pp cons pl) W).get r c) = W.get r c := by
  induction m with
  | zero => rfl
  | succ m ih =>
    rw [List.range_succ, List.foldl_append, List.foldl_cons, List.foldl_nil,
      derivePrevStep_get_other _ _ _ _ _ _ _ _ h, ih]

theorem derivePrevFold_cols (curr pp : Nat) (cons : Bool) (pl : Nat) (W : Mat) (m : Nat) :
    ((List.range m).foldl (derivePrevStep curr pp cons pl) W).cols = W.cols := by
  induction m with
  | zero => rfl
  | succ m ih =>
    rw [List.range_succ, List.foldl_append, List.foldl_cons, List.foldl_nil,
      derivePrevStep_cols, ih]

/-- The values the backward derivation writes into the neighbor's row
(the mirror of `deriveNextFold_get_np`, reading the source patch's back
value). -/
theorem derivePrevFold_get_np (curr pp : Nat) (cons : Bool) (pl : Nat) (W : Mat)
    (hne : pp ≠ curr) (m : Nat) :
    ∀ i < m,
      (i ≠ pl →
        ((List.range m).foldl (derivePrevStep curr pp cons pl) W).get pp (2 * i) =
          W.get curr (2 * i + 1) ∧
        ((List.range m).foldl (derivePrevStep curr pp cons pl) W).get pp (2 * i + 1) =
          W.get curr (2 * i + 1)) ∧
      (i = pl →
        ((List.range m).foldl (derivePrevStep curr pp cons pl) W).get pp
            (2 * i + (if cons then 1 else 0)) = W.get curr (2 * i + 1) ∧
        ((List.range m).foldl (derivePrevStep curr pp cons pl) W).get pp
            (2 * i + (if cons then 0 else 1)) =
          W.get curr (2 * i + 1) + (if cons then -1 else 1)) := by
  induction m with
  | zero => intro i hi; omega
  | succ m ih =>
    intro i hi
    rw [List.range_succ, List.foldl_append, List.foldl_cons, List.foldl_nil]
    rcases Nat.lt_or_ge i m with him | him
    · have h1 : ∀ c, c ≠ 2 * m → c ≠ 2 * m + 1 →
          (derivePrevStep curr pp cons pl ((List.range m).foldl
            (derivePrevStep curr pp cons pl) W) m).get pp c =
          ((List.range m).foldl (derivePrevStep curr pp cons pl) W).get pp c := by
        intro c hc1 hc2
        exact derivePrevStep_get_other_col _ _ _ _ _ _ _ _ hc1 hc2
      constructor
      · intro hipl
        constructor
        · rw [h1 _ (by omega) (by omega)]; exact ((ih i him).1 hipl).1
        · rw [h1 _ (by omega) (by omega)]; exact ((ih i him).1 hipl).2
      · intro hipl
        constructor
        · rw [h1 _ (by cases cons <;> simp <;> omega) (by cases cons <;> simp <;> omega)]
          exact ((ih i him).2 hipl).1
        · rw [h1 _ (by cases cons <;> simp <;> omega) (by cases cons <;> simp <;> omega)]
          exact ((ih i him).2 hipl).2
    · have hieq : i = m := by omega
      subst hieq
      have hcurr : ((List.range i).foldl (derivePrevStep curr pp cons pl) W).get curr
          (2 * i + 1) = W.get curr (2 * i + 1) :=
        derivePrevFold_get_other _ _ _ _ _ _ _ _ (Ne.symm hne)
      constructor
      · intro hipl
        cases cons <;>
          simp [derivePrevStep, hipl, Mat.get_set, hcurr]
      · intro hipl
        subst hipl
        cases cons <;>
          simp [derivePrevStep, Mat.get_set, hcurr]

/-! ### Value range of the derived rows -/

theorem deriveNext_get_other (W : Mat) (curr np : Nat) (co no : Bool) (nl L r c : Nat)
    (h : r ≠ np) : (deriveNext W curr np co no nl L).get r c = W.get r c :=
  deriveNextFold_get_other _ _ _ _ _ _ _ _ h

theorem deriveNext_cols (W : Mat) (curr np : Nat) (co no : Bool) (nl L : Nat) :
    (deriveNext W curr np co no nl L).cols = W.cols :=
  deriveNextFold_cols _ _ _ _ _ _

theorem derivePrev_get_other (W : Mat) (curr pp : Nat) (co po : Bool) (pl L r c : Nat)
    (h : r ≠ pp) : (derivePrev W curr pp co po pl L).get r c = W.get r c :=
  derivePrevFold_get_other _ _ _ _ _ _ _ _ h

theorem derivePrev_cols (W : Mat) (curr pp : Nat) (co po : Bool) (pl L : Nat) :
    (derivePrev W curr pp co po pl L).cols = W.cols :=
  derivePrevFold_cols _ _ _ _ _ _

/-- Every entry the forward derivation writes is the source's front value
for the corresponding label, possibly shifted by one. -/
theorem deriveNext_vals (W : Mat) (curr np : Nat) (co no : Bool) (nl L : Nat)
    (hne : np ≠ curr) (i : Nat) (hi : i < L) (e : Nat) (he : e < 2) :
    (deriveNext W curr np co no nl L).get np (2 * i + e) = W.get curr (2 * i) ∨
    (deriveNext W curr np co no nl L).get np (2 * i + e) = W.get curr (2 * i) + 1 ∨
    (deriveNext W curr np co no nl L).get np (2 * i + e) = W.get curr (2 * i) - 1 := by
  have he2 : e = 0 ∨ e = 1 := by omega
  simp only [deriveNext]
  have h := deriveNextFold_get_np curr np (no != co) nl W hne L i hi
  by_cases hnl : i = nl
  · have h2 := h.2 hnl
    cases hcons : (no != co)
    · rw [hcons] at h2
      simp only [Bool.false_eq_true, if_false, reduceIte] at h2
      rcases he2 with he2 | he2 <;> subst he2
      · exact Or.inr (Or.inr (by simpa [sub_eq_add_neg] using h2.2))
      · exact Or.inl h2.1
    · rw [hcons] at h2
      simp only [if_true, reduceIte] at h2
      rcases he2 with he2 | he2 <;> subst he2
      · exact Or.inl (by simpa using h2.1)
      · exact Or.inr (Or.inl h2.2)
  · have h1 := h.1 hnl
    rcases he2 with he2 | he2 <;> subst he2
    · exact Or.inl (by simpa using h1.1)
    · exact Or.inl h1.2

/-- Every entry the backward derivation writes is the source's back value
for the corresponding label, possibly shifted by one. -/
theorem derivePrev_vals (W : Mat) (curr pp : Nat) (co po : Bool) (pl L : Nat)
    (hne : pp ≠ curr) (i : Nat) (hi : i < L) (e : Nat) (he : e < 2) :
    (derivePrev W curr pp co po pl L).get pp (2 * i + e) = W.get curr (2 * i + 1) ∨
    (derivePrev W curr pp co po pl L).get pp (2 * i + e) = W.get curr (2 * i + 1) + 1 ∨
    (derivePrev W curr pp co po pl L).get pp (2 * i + e) = W.get curr (2 * i + 1) - 1 := by
  have he2 : e = 0 ∨ e = 1 := by omega
  simp only [derivePrev]
  have h := derivePrevFold_get_np curr pp (po != co) pl W hne L i hi
  by_cases hpl : i = pl
  · have h2 := h.2 hpl
    cases hcons : (po != co)
    · rw [hcons] at h2
      simp only [Bool.false_eq_true, if_false, reduceIte] at h2
      rcases he2 with he2 | he2 <;> subst he2
      · exact Or.inl (by simpa using h2.1)
      · exact Or.inr (Or.inl h2.2)
    · rw [hcons] at h2
      simp only [if_true, reduceIte] at h2
      rcases he2 with he2 | he2 <;> subst he2
      · exact Or.inr (Or.inr (by simpa [sub_eq_add_neg] using h2.2))
      · exact Or.inl h2.1
  · have h1 := h.1 hpl
    rcases he2 with he2 | he2 <;> subst he2
    · exact Or.inl (by simpa using h1.1)
    · exact Or.inl h1.2

theorem deriveNext_assigned (W : Mat) (curr np : Nat) (co no : Bool) (nl L : Nat)
    (hne : np ≠ curr) (hcols : W.cols = 2 * L) (hsafe : rowSafe W curr) :
    winding_num_assigned (deriveNext W curr np co no nl L) np = true := by
  rw [winding_num_assigned_iff]
  intro c hc
  rw [deriveNext_cols, hcols] at hc
  have hce : c = 2 * (c / 2) + c % 2 := by omega
  rw [hce]
  have hlt : 2 * (c / 2) < W.cols := by omega
  have hs := hsafe (2 * (c / 2)) hlt
  rcases deriveNext_vals W curr np co no nl L hne (c / 2) (by omega) (c % 2) (by omega)
    with h | h | h <;> rw [h]
  · exact hs.1
  · exact hs.2.1
  · exact hs.2.2

theorem derivePrev_assigned (W : Mat) (curr pp : Nat) (co po : Bool) (pl L : Nat)
    (hne : pp ≠ curr) (hcols : W.cols = 2 * L) (hsafe : rowSafe W curr) :
    winding_num_assigned (derivePrev W curr pp co po pl L) pp = true := by
  rw [winding_num_assigned_iff]
  intro c hc
  rw [derivePrev_cols, hcols] at hc
  have hce : c = 2 * (c / 2) + c % 2 := by omega
  rw [hce]
  have hlt : 2 * (c / 2) + 1 < W.cols := by omega
  have hs := hsafe (2 * (c / 2) + 1) hlt
  rcases derivePrev_vals W curr pp co po pl L hne (c / 2) (by omega) (c % 2) (by omega)
    with h | h | h <;> rw [h]
  · exact hs.1
  · exact hs.2.1
  · exact hs.2.2


theorem winding_num_assigned_congr (W W' : Mat) (q : Nat) (hc : W'.cols = W.cols)
    (h : ∀ c, W'.get q c = W.get q c) :
    winding_num_assigned W' q = winding_num_assigned W q := by
  unfold winding_num_assigned
  rw [hc]
  congr 1
  funext c
  rw [h c]

theorem processCurve_cases (labels order : List Nat) (orient : List Bool) (L p : Nat)
    (W : Mat) (ci : Nat) (hci : order.findIdx? (· == p) = some ci) :
    processCurve labels order orient L p W =
      (let n := order.length
       let cori := orient.getD ci false
       let ni := if cori then (ci + 1) % n else (ci + n - 1) % n
       let pri := if cori then (ci + n - 1) % n else (ci + 1) % n
       let np := order.getD ni 0
       let pp := order.getD pri 0
       let s1 : Mat × List Nat :=
         if winding_num_assigned W np then (W, [])
         else (deriveNext W p np cori (orient.getD ni false) (labels.getD np 0) L, [np])
       let s2 : Mat × List Nat :=
         if winding_num_assigned s1.1 pp then (s1.1, [])
         else (derivePrev s1.1 p pp cori (orient.getD pri false) (labels.getD pp 0) L, [pp])
       (s2.1, s1.2 ++ s2.2)) := by
  simp only [processCurve, hci]


theorem deriveNext_formula (W : Mat) (curr np : Nat) (co no : Bool) (nl L : Nat)
    (hne : np ≠ curr) (i : Nat) (hi : i < L) :
    (i ≠ nl →
      (deriveNext W curr np co no nl L).get np (2 * i) = W.get curr (2 * i) ∧
      (deriveNext W curr np co no nl L).get np (2 * i + 1) = W.get curr (2 * i)) ∧
    (i = nl →
      (deriveNext W curr np co no nl L).get np (2 * i + (if (no != co) then 0 else 1)) =
        W.get curr (2 * i) ∧
      (deriveNext W curr np co no nl L).get np (2 * i + (if (no != co) then 1 else 0)) =
        W.get curr (2 * i) + (if (no != co) then 1 else -1)) :=
  deriveNextFold_get_np curr np (no != co) nl W hne L i hi

theorem derivePrev_formula (W : Mat) (curr pp : Nat) (co po : Bool) (pl L : Nat)
    (hne : pp ≠ curr) (i : Nat) (hi : i < L) :
    (i ≠ pl →
      (derivePrev W curr pp co po pl L).get pp (2 * i) = W.get curr (2 * i + 1) ∧
      (derivePrev W curr pp co po pl L).get pp (2 * i + 1) = W.get curr (2 * i + 1)) ∧
    (i = pl →
      (derivePrev W curr pp co po pl L).get pp (2 * i + (if (po != co) then 1 else 0)) =
        W.get curr (2 * i + 1) ∧
      (derivePrev W curr pp co po pl L).get pp (2 * i + (if (po != co) then 0 else 1)) =
        W.get curr (2 * i + 1) + (if (po != co) then -1 else 1)) :=
  derivePrevFold_get_np curr pp (po != co) pl W hne L i hi


/-- Claim C2: in the patch-wise BFS, when a dequeued patch `p` with a fully
assigned (and sentinel-safe) winding vector processes one adjacent curve,
(A) a neighbor whose vector is already fully assigned is never written;
(B) an unassigned forward neighbor gets, for every label other than its
own, both entries set to the source patch's shared front value, and for its
own label the two entries set to the shared value and the shared value
changed by exactly one, decremented when the two incidences' orientation
flags match and incremented when they differ; (C) the backward crossing is
the mirror, reading the source patch's back value with the opposite signs.
The forward neighbor sits at the cyclic position `ci+1` when `p`'s
orientation flag is set and `ci-1` otherwise, the backward neighbor
opposite, as fixed by the hypotheses defining `ni`, `pri`, `np`, `pp`. -/
theorem claim_C2 (W : Mat) (labels order : List Nat) (orient : List Bool)
    (L p ci n ni pri np pp : Nat) (cori : Bool)
    (hci : order.findIdx? (· == p) = some ci)
    (hn : n = order.length)
    (hcori : cori = orient.getD ci false)
    (hni : ni = if cori then (ci + 1) % n else (ci + n - 1) % n)
    (hpri : pri = if cori then (ci + n - 1) % n else (ci + 1) % n)
    (hnp : np = order.getD ni 0)
    (hpp : pp = order.getD pri 0)
    (hcols : W.cols = 2 * L)
    (hp : winding_num_assigned W p = true)
    (hsafe : rowSafe W p) :
    (∀ q, winding_num_assigned W q = true → ∀ c,
      (processCurve labels order orient L p W).1.get q c = W.get q c) ∧
    (winding_num_assigned W np = false →
      (∀ i < L, i ≠ labels.getD np 0 →
        (processCurve labels order orient L p W).1.get np (2 * i) = W.get p (2 * i) ∧
        (processCurve labels order orient L p W).1.get np (2 * i + 1) = W.get p (2 * i)) ∧
      (labels.getD np 0 < L →
        (processCurve labels order orient L p W).1.get np
            (2 * labels.getD np 0 + (if (orient.getD ni false != cori) then 0 else 1)) =
          W.get p (2 * labels.getD np 0) ∧
        (processCurve labels order orient L p W).1.get np
            (2 * labels.getD np 0 + (if (orient.getD ni false != cori) then 1 else 0)) =
          W.get p (2 * labels.getD np 0) + (if (orient.getD ni false != cori) then 1 else -1))) ∧
    (winding_num_assigned W pp = false →
      (winding_num_assigned W np = true ∨ pp ≠ np) →
      (∀ i < L, i ≠ labels.getD pp 0 →
        (processCurve labels order orient L p W).1.get pp (2 * i) = W.get p (2 * i + 1) ∧
        (processCurve labels order orient L p W).1.get pp (2 * i + 1) = W.get p (2 * i + 1)) ∧
      (labels.getD pp 0 < L →
        (processCurve labels order orient L p W).1.get pp
            (2 * labels.getD pp 0 + (if (orient.getD pri false != cori) then 1 else 0)) =
          W.get p (2 * labels.getD pp 0 + 1) ∧
        (processCurve labels order orient L p W).1.get pp
            (2 * labels.getD pp 0 + (if (orient.getD pri false != cori) then 0 else 1)) =
          W.get p (2 * labels.getD pp 0 + 1) + (if (orient.getD pri false != cori) then -1 else 1))) := by
  refine ⟨?_, ?_, ?_⟩
  · -- (A) assigned rows are never written
    intro q hq c
    cases hA : winding_num_assigned W np with
    | true =>
      cases hB : winding_num_assigned W pp with
      | true =>
        have hred : processCurve labels order orient L p W = (W, []) := by
          rw [processCurve_cases labels order orient L p W ci hci]
          simp only [← hn, ← hcori, ← hni, ← hpri, ← hnp, ← hpp, hA, hB, if_true,
            List.append_nil, List.nil_append]
        rw [hred]
      | false =>
        have hqpp : q ≠ pp := by
          intro h; rw [h, hB] at hq; exact Bool.false_ne_true hq
        have hred : processCurve labels order orient L p W =
            (derivePrev W p pp cori (orient.getD pri false) (labels.getD pp 0) L, [pp]) := by
          rw [processCurve_cases labels order orient L p W ci hci]
          simp only [← hn, ← hcori, ← hni, ← hpri, ← hnp, ← hpp, hA, hB, if_true,
            Bool.false_eq_true, if_false, List.append_nil, List.nil_append]
        rw [hred]
        exact derivePrev_get_other _ _ _ _ _ _ _ _ _ hqpp
    | false =>
      have hqnp : q ≠ np := by
        intro h; rw [h, hA] at hq; exact Bool.false_ne_true hq
      cases hB : winding_num_assigned
          (deriveNext W p np cori (orient.getD ni false) (labels.getD np 0) L) pp with
      | true =>
        have hred : processCurve labels order orient L p W =
            (deriveNext W p np cori (orient.getD ni false) (labels.getD np 0) L, [np]) := by
          rw [processCurve_cases labels order orient L p W ci hci]
          simp only [← hn, ← hcori, ← hni, ← hpri, ← hnp, ← hpp, hA, hB, if_true,
            Bool.false_eq_true, if_false, List.append_nil, List.nil_append]
        rw [hred]
        exact deriveNext_get_other _ _ _ _ _ _ _ _ _ hqnp
      | false =>
        have hqpp : q ≠ pp := by
          intro h
          subst h
          have hcong := winding_num_assigned_congr W
            (deriveNext W p np cori (orient.getD ni false) (labels.getD np 0) L) q
            (deriveNext_cols _ _ _ _ _ _ _)
            (fun c => deriveNext_get_other _ _ _ _ _ _ _ _ _ hqnp)
          rw [hq] at hcong
          rw [hcong] at hB
          exact absurd hB (by decide)
        have hred : processCurve labels order orient L p W =
            (derivePrev (deriveNext W p np cori (orient.getD ni false) (labels.getD np 0) L)
              p pp cori (orient.getD pri false) (labels.getD pp 0) L, [np, pp]) := by
          rw [processCurve_cases labels order orient L p W ci hci]
          simp only [← hn, ← hcori, ← hni, ← hpri, ← hnp, ← hpp, hA, hB, if_true,
            Bool.false_eq_true, if_false, List.singleton_append]
        rw [hred]
        rw [derivePrev_get_other _ _ _ _ _ _ _ _ _ hqpp]
        exact deriveNext_get_other _ _ _ _ _ _ _ _ _ hqnp
  · -- (B) forward derivation
    intro hA
    have hnep : np ≠ p := by
      intro h; rw [h, hp] at hA; exact absurd hA (by decide)
    cases hB : winding_num_assigned
        (deriveNext W p np cori (orient.getD ni false) (labels.getD np 0) L) pp with
    | true =>
      have hred : processCurve labels order orient L p W =
          (deriveNext W p np cori (orient.getD ni false) (labels.getD np 0) L, [np]) := by
        rw [processCurve_cases labels order orient L p W ci hci]
        simp only [← hn, ← hcori, ← hni, ← hpri, ← hnp, ← hpp, hA, hB, if_true,
          Bool.false_eq_true, if_false, List.append_nil, List.nil_append]
      rw [hred]
      constructor
      · intro i hi hnl
        exact (deriveNext_formula W p np cori (orient.getD ni false) _ L hnep i hi).1 hnl
      · intro hl
        exact (deriveNext_formula W p np cori (orient.getD ni false) _ L hnep _ hl).2 rfl
    | false =>
      have hqpp : pp ≠ np := by
        intro h
        subst h
        have hder := deriveNext_assigned W p pp cori (orient.getD ni false) (labels.getD pp 0) L
          hnep hcols hsafe
        rw [hder] at hB
        exact absurd hB (by decide)
      set W1 := deriveNext W p np cori (orient.getD ni false) (labels.getD np 0) L with hW1
      have hred : processCurve labels order orient L p W =
          (derivePrev W1 p pp cori (orient.getD pri false) (labels.getD pp 0) L, [np, pp]) := by
        rw [processCurve_cases labels order orient L p W ci hci]
        simp only [← hn, ← hcori, ← hni, ← hpri, ← hnp, ← hpp, ← hW1, hA, hB, if_true,
          Bool.false_eq_true, if_false, List.singleton_append, List.append_nil,
          List.nil_append]
      have hnpget : ∀ c,
          (derivePrev W1 p pp cori (orient.getD pri false) (labels.getD pp 0) L).get np c =
            W1.get np c :=
        fun c => derivePrev_get_other _ _ _ _ _ _ _ _ _ (Ne.symm hqpp)
      rw [hred]
      constructor
      · intro i hi hnl
        exact ⟨(hnpget _).trans
            (((deriveNext_formula W p np cori (orient.getD ni false) _ L hnep i hi).1 hnl).1),
          (hnpget _).trans
            (((deriveNext_formula W p np cori (orient.getD ni false) _ L hnep i hi).1 hnl).2)⟩
      · intro hl
        exact ⟨(hnpget _).trans
            (((deriveNext_formula W p np cori (orient.getD ni false) _ L hnep _ hl).2 rfl).1),
          (hnpget _).trans
            (((deriveNext_formula W p np cori (orient.getD ni false) _ L hnep _ hl).2 rfl).2)⟩
  · -- (C) backward derivation
    intro hC hdisj
    have hnep : pp ≠ p := by
      intro h; rw [h, hp] at hC; exact absurd hC (by decide)
    cases hA : winding_num_assigned W np with
    | true =>
      have hred : processCurve labels order orient L p W =
          (derivePrev W p pp cori (orient.getD pri false) (labels.getD pp 0) L, [pp]) := by
        rw [processCurve_cases labels order orient L p W ci hci]
        simp only [← hn, ← hcori, ← hni, ← hpri, ← hnp, ← hpp, hA, hC, if_true,
          Bool.false_eq_true, if_false, List.append_nil, List.nil_append]
      rw [hred]
      constructor
      · intro i hi hnl
        exact (derivePrev_formula W p pp cori (orient.getD pri false) _ L hnep i hi).1 hnl
      · intro hl
        exact (derivePrev_formula W p pp cori (orient.getD pri false) _ L hnep _ hl).2 rfl
    | false =>
      have hppnp : pp ≠ np := by
        rcases hdisj with h | h
        · rw [hA] at h; exact absurd h (by decide)
        · exact h
      have hpnp : p ≠ np := by
        intro h; rw [← h, hp] at hA; exact absurd hA (by decide)
      set W1 := deriveNext W p np cori (orient.getD ni false) (labels.getD np 0) L with hW1
      have hrow : ∀ c, W1.get pp c = W.get pp c :=
        fun c => deriveNext_get_other _ _ _ _ _ _ _ _ _ hppnp
      have hrowp : ∀ c, W1.get p c = W.get p c :=
        fun c => deriveNext_get_other _ _ _ _ _ _ _ _ _ hpnp
      have hB : winding_num_assigned W1 pp = false := by
        rw [winding_num_assigned_congr W W1 pp (deriveNext_cols _ _ _ _ _ _ _) hrow]
        exact hC
      have hred : processCurve labels order orient L p W =
          (derivePrev W1 p pp cori (orient.getD pri false) (labels.getD pp 0) L, [np, pp]) := by
        rw [processCurve_cases labels order orient L p W ci hci]
        simp only [← hn, ← hcori, ← hni, ← hpri, ← hnp, ← hpp, ← hW1, hA, hB, if_true,
          Bool.false_eq_true, if_false, List.singleton_append, List.append_nil,
          List.nil_append]
      rw [hred]
      constructor
      · intro i hi hnl
        exact ⟨(((derivePrev_formula W1 p pp cori (orient.getD pri false) _ L hnep i hi).1
              hnl).1).trans (hrowp _),
          (((derivePrev_formula W1 p pp cori (orient.getD pri false) _ L hnep i hi).1
              hnl).2).trans (hrowp _)⟩
      · intro hl
        exact ⟨(((derivePrev_formula W1 p pp cori (orient.getD pri false) _ L hnep _ hl).2
              rfl).1).trans (hrowp _),
          (((derivePrev_formula W1 p pp cori (orient.getD pri false) _ L hnep _ hl).2
              rfl).2).trans (by rw [hrowp _])⟩


theorem claim_C2_witness :
    (processCurve [0, 0, 0, 0] [0, 1, 2, 3] [true, true, true, true] 1 0
      (seedPatchW 4 1 0 0 false)).1.get 1 0 = -1 ∧
    (processCurve [0, 0, 0, 0] [0, 1, 2, 3] [true, true, true, true] 1 0
      (seedPatchW 4 1 0 0 false)).1.get 1 1 = 0 := by
  have h := claim_C2 (seedPatchW 4 1 0 0 false) [0, 0, 0, 0] [0, 1, 2, 3]
    [true, true, true, true] 1 0 0 4 1 3 1 3 true
    (by decide) (by decide) (by decide) (by decide) (by decide) (by decide) (by decide)
    (by decide) (by decide) (by decide)
  have h2 := (h.2.1 (by decide)).2 (by decide)
  simp only [show (([true, true, true, true].getD 1 false) != true) = false from rfl,
    Bool.false_eq_true, if_false, reduceIte] at h2
  have hs : (seedPatchW 4 1 0 0 false).get 0 (2 * ([0, 0, 0, 0].getD 1 0)) = 0 := by decide
  rw [hs] at h2
  norm_num at h2
  exact ⟨h2.2, h2.1⟩



/-- Claim C4: `winding_number_assignment_is_consistent` (the value returned
by `propagate_winding_numbers_single_component_patch_wise`) is `true` if
and only if, for every intersection curve, every consecutive pair in its
cyclic order, and every label, the winding value of the current patch on
the side selected by its orientation flag equals the winding value of the
next patch on the opposite-selected side; a single mismatch makes the whole
result `false` (the function returns the flag instead of throwing), and
with no intersection curves the flag is `true`. -/
theorem claim_C4 :
    (∀ (orders : List (List Nat)) (orients : List (List Bool)) (W : Mat),
      winding_number_assignment_is_consistent orders orients W = true ↔
        ∀ i < orders.length, ∀ j < (orders.getD i []).length, ∀ k < W.cols / 2,
          W.get ((orders.getD i []).getD j 0)
              (2 * k + (if (orients.getD i []).getD j false then 0 else 1)) =
          W.get ((orders.getD i []).getD ((j + 1) % (orders.getD i []).length) 0)
              (2 * k + (if (orients.getD i []).getD ((j + 1) % (orders.getD i []).length) false
                then 1 else 0))) ∧
    (∀ W : Mat, winding_number_assignment_is_consistent [] [] W = true) ∧
    (∀ (orderFacets : OrderOracle) (outerFacet : OuterOracle) V F uE uE2E labels P curves ad r,
      buildAdapter orderFacets V F uE uE2E P (P.foldl max 0 + 1) curves = Except.ok ad →
      propagate_winding_numbers_single_component_patch_wise orderFacets outerFacet
          V F uE uE2E labels P curves = Except.ok r →
      r.2 = winding_number_assignment_is_consistent ad.orders ad.orients r.1) := by
  refine ⟨?_, ?_, ?_⟩
  · intro orders orients W
    simp only [winding_number_assignment_is_consistent, List.all_eq_true, List.mem_range,
      beq_iff_eq]
  · intro W
    rfl
  · intro orderFacets outerFacet V F uE uE2E labels P curves ad r had hr
    simp only [propagate_winding_numbers_single_component_patch_wise, had,
      Except.map] at hr
    cases hr
    rfl


/-- Witness for C4: the consistency of a one-curve, one-patch order with a
constant matrix, and the no-curve case. -/
theorem claim_C4_witness :
    (Mat.const 1 2 0).get 0 0 = (Mat.const 1 2 0).get 0 1 ∧
    winding_number_assignment_is_consistent [] [] (Mat.const 3 4 5) = true := by
  constructor
  · exact (claim_C4.1 [[0]] [[true]] (Mat.const 1 2 0)).mp (by decide) 0 (by decide) 0
      (by decide) 0 (by decide)
  · exact claim_C4.2.1 (Mat.const 3 4 5)



/-- Claim C3: when some unique edge has an odd number of incident
half-edges, `propagate_winding_numbers` throws the fatal odd-degree error,
and it does so before any connected-component extraction or propagation is
attempted: the result is the same error for every choice of the downstream
collaborators (second conjunct).  When every unique edge has even degree
the precondition check raises no error and the computation proceeds to the
per-component propagation and nesting-correction pipeline. -/
theorem claim_C3 :
    (∀ (O : Oracles) (V : List Vec3) (F : List Face) (labels : List Nat),
      (∃ l ∈ (O.uniqueEdgeMap F).2.2.2, l.length % 2 = 1) →
      propagate_winding_numbers O V F labels = Except.error odd_edge_msg) ∧
    (∀ (O O' : Oracles) (V V' : List Vec3) (F : List Face) (labels labels' : List Nat),
      O.uniqueEdgeMap F = O'.uniqueEdgeMap F →
      (∃ l ∈ (O.uniqueEdgeMap F).2.2.2, l.length % 2 = 1) →
      propagate_winding_numbers O V F labels = propagate_winding_numbers O' V' F labels') ∧
    (∀ (O : Oracles) (V : List Vec3) (F : List Face) (labels : List Nat),
      (∀ l ∈ (O.uniqueEdgeMap F).2.2.2, l.length % 2 = 0) →
      propagate_winding_numbers O V F labels =
        (propagate_prepare O V F labels).map (fun pre =>
          applyCorrection pre.components
            (ambientCorrection O V pre.components pre.compFaces pre.Wpre
              pre.numComponents pre.numLabels)
            pre.Wpre)) := by
  have hkey : ∀ (O : Oracles) (V : List Vec3) (F : List Face) (labels : List Nat),
      (∃ l ∈ (O.uniqueEdgeMap F).2.2.2, l.length % 2 = 1) →
      propagate_winding_numbers O V F labels = Except.error odd_edge_msg := by
    intro O V F labels h
    obtain ⟨l, hl, hodd⟩ := h
    have hcond : ((O.uniqueEdgeMap F).2.2.2).any (fun l => l.length % 2 == 1) = true := by
      rw [List.any_eq_true]
      exact ⟨l, hl, by simpa using hodd⟩
    simp [propagate_winding_numbers, hcond]
  refine ⟨hkey, ?_, ?_⟩
  · intro O O' V V' F labels labels' huem h
    rw [hkey O V F labels h, hkey O' V' F labels' (huem ▸ h)]
  · intro O V F labels h
    have hcond : ((O.uniqueEdgeMap F).2.2.2).any (fun l => l.length % 2 == 1) = false := by
      rw [List.any_eq_false]
      intro l hl
      simp [h l hl]
    simp [propagate_winding_numbers, hcond]

/-- Witness for C3: the single-half-edge oracle aborts with the odd-degree
error; the even-degree mesh 1 runs to completion. -/
theorem claim_C3_witness :
    propagate_winding_numbers Oodd V1 F1 labels1 = Except.error odd_edge_msg ∧
    exIsOk (propagate_winding_numbers O1 V1 F1 labels1) = true := by
  constructor
  · exact claim_C3.1 Oodd V1 F1 labels1 ⟨[0], by decide, by decide⟩
  · rw [claim_C3.2.2 O1 V1 F1 labels1 (by decide)]
    decide



theorem foldlM_except_error {α β : Type} (f : β → α → Except String β) :
    ∀ (l : List α) (init : β) (e : String), l.foldlM f init = Except.error e →
      ∃ b a, a ∈ l ∧ f b a = Except.error e := by
  intro l
  induction l with
  | nil => intro init e h; simp [List.foldlM, pure, Except.pure] at h
  | cons a l ih =>
    intro init e h
    rw [List.foldlM_cons] at h
    cases hfa : f init a with
    | error e' =>
      rw [hfa] at h
      simp only [Except.bind, bind] at h
      cases h
      exact ⟨init, a, List.mem_cons_self a l, hfa⟩
    | ok b =>
      rw [hfa] at h
      simp only [Except.bind, bind] at h
      obtain ⟨b', a', ha', hfa'⟩ := ih b e h
      exact ⟨b', a', List.mem_cons_of_mem _ ha', hfa'⟩

theorem except_map_error {α β : Type} (f : α → β) (x : Except String α) (e : String)
    (h : x.map f = Except.error e) : x = Except.error e := by
  cases x with
  | error e' => cases h; rfl
  | ok a => simp [Except.map] at h

theorem except_map_ok {α β : Type} (f : α → β) (x : Except String α) (b : β)
    (h : x.map f = Except.ok b) : ∃ a, x = Except.ok a ∧ b = f a := by
  cases x with
  | error e' => simp [Except.map] at h
  | ok a => refine ⟨a, rfl, ?_⟩; simpa [Except.map] using h.symm

theorem buildAdjFaces_error (F : List Face) (nf s d : Nat) :
    ∀ (hs : List Nat) (e : String), buildAdjFaces F nf s d hs = Except.error e →
      e = edge_err_msg := by
  intro hs
  induction hs with
  | nil => intro e h; simp [buildAdjFaces, List.mapM, List.mapM.loop, pure, Except.pure] at h
  | cons a l ih =>
    intro e h
    rw [buildAdjFaces, List.mapM_cons] at h
    cases hc : compute_signed_index F (a % nf) s d with
    | none =>
      simp only [hc, Except.bind, bind, Except.map] at h
      cases h
      rfl
    | some v =>
      simp only [hc, Except.bind, bind] at h
      cases hm : (l.mapM fun ei =>
          match compute_signed_index F (ei % nf) s d with
          | some v => Except.ok v
          | none => Except.error edge_err_msg : Except String (List Int)) with
      | error e' =>
        have := ih e' hm
        rw [hm] at h
        simp only [Except.bind, bind, Except.pure, pure] at h
        cases h
        exact this
      | ok vs =>
        rw [hm] at h
        simp only [Except.bind, bind, Except.pure, pure] at h
        cases h

theorem buildAdapter_error (orderFacets : OrderOracle) (V : List Vec3) (F : List Face)
    (uE : List (Nat × Nat)) (uE2E : List (List Nat)) (P : List Nat) (np : Nat)
    (curves : List (List Nat)) (e : String)
    (h : buildAdapter orderFacets V F uE uE2E P np curves = Except.error e) :
    e = edge_err_msg := by
  rw [buildAdapter] at h
  obtain ⟨b, a, _ha, hstep⟩ := foldlM_except_error _ _ _ _ h
  dsimp only at hstep
  cases hadj : buildAdjFaces F F.length ((uE.getD ((curves.getD a []).getD 0 0) (0, 0)).1)
      ((uE.getD ((curves.getD a []).getD 0 0) (0, 0)).2)
      (uE2E.getD ((curves.getD a []).getD 0 0) []) with
  | error e' =>
    rw [hadj] at hstep
    simp only [Except.bind, bind] at hstep
    cases hstep
    exact buildAdjFaces_error _ _ _ _ _ _ hadj
  | ok vs =>
    rw [hadj] at hstep
    simp only [Except.bind, bind, Except.pure, pure] at hstep
    cases hstep

theorem patch_wise_error (orderFacets : OrderOracle) (outerFacet : OuterOracle)
    (V : List Vec3) (F : List Face) (uE : List (Nat × Nat)) (uE2E : List (List Nat))
    (labels P : List Nat) (curves : List (List Nat)) (e : String)
    (h : propagate_winding_numbers_single_component_patch_wise orderFacets outerFacet
      V F uE uE2E labels P curves = Except.error e) : e = edge_err_msg := by
  rw [propagate_winding_numbers_single_component_patch_wise] at h
  exact buildAdapter_error _ _ _ _ _ _ _ _ _ (except_map_error _ _ _ h)

theorem single_component_error (O : Oracles) (V : List Vec3) (F : List Face)
    (labels : List Nat) (e : String)
    (h : propagate_winding_numbers_single_component O V F labels = Except.error e) :
    e = edge_err_msg := by
  rw [propagate_winding_numbers_single_component] at h
  exact patch_wise_error _ _ _ _ _ _ _ _ _ _ (except_map_error _ _ _ h)

theorem prepare_error (O : Oracles) (V : List Vec3) (F : List Face)
    (labels : List Nat) (e : String)
    (h : propagate_prepare O V F labels = Except.error e) : e = edge_err_msg := by
  rw [propagate_prepare] at h
  have h2 := except_map_error _ _ _ h
  obtain ⟨b, a, _ha, hstep⟩ := foldlM_except_error _ _ _ _ h2
  rw [prepStep] at hstep
  exact single_component_error _ _ _ _ _ (except_map_error _ _ _ hstep)


theorem foldlM_ok_invariant {α β : Type} (f : β → α → Except String β) (P : β → Prop)
    (hstep : ∀ b a b', P b → f b a = Except.ok b' → P b') :
    ∀ (l : List α) (init res : β), P init → l.foldlM f init = Except.ok res → P res := by
  intro l
  induction l with
  | nil =>
    intro init res hP h
    simp only [List.foldlM, pure, Except.pure] at h
    cases h
    exact hP
  | cons a l ih =>
    intro init res hP h
    rw [List.foldlM_cons] at h
    cases hfa : f init a with
    | error e' => rw [hfa] at h; simp only [Except.bind, bind] at h; cases h
    | ok b =>
      rw [hfa] at h
      simp only [Except.bind, bind] at h
      exact ih b res (hstep init a b hP hfa) h

theorem writeComponentRows_rows (W : Mat) (comp : List Nat) (width : Nat) (Wi : Mat) :
    (writeComponentRows W comp width Wi).rows = W.rows := by
  suffices h : ∀ (l : List Nat) (W : Mat),
      (l.foldl (fun W j => blockCopyRow W (comp.getD j 0) width Wi j) W).rows = W.rows from
    h _ W
  intro l
  induction l with
  | nil => intro W; rfl
  | cons a l ih => intro W; rw [List.foldl_cons, ih]; rfl

theorem writeComponentRows_cols (W : Mat) (comp : List Nat) (width : Nat) (Wi : Mat) :
    (writeComponentRows W comp width Wi).cols = W.cols := by
  suffices h : ∀ (l : List Nat) (W : Mat),
      (l.foldl (fun W j => blockCopyRow W (comp.getD j 0) width Wi j) W).cols = W.cols from
    h _ W
  intro l
  induction l with
  | nil => intro W; rfl
  | cons a l ih => intro W; rw [List.foldl_cons, ih]; rfl

theorem addRowVec_fold_rows (l : List Nat) (amb : Mat) (i : Nat) :
    ∀ W : Mat, (l.foldl (fun W fid => W.addRowVec fid (fun c => amb.get i c)) W).rows =
      W.rows := by
  induction l with
  | nil => intro W; rfl
  | cons a l ih => intro W; rw [List.foldl_cons, ih]; rfl

theorem addRowVec_fold_cols (l : List Nat) (amb : Mat) (i : Nat) :
    ∀ W : Mat, (l.foldl (fun W fid => W.addRowVec fid (fun c => amb.get i c)) W).cols =
      W.cols := by
  induction l with
  | nil => intro W; rfl
  | cons a l ih => intro W; rw [List.foldl_cons, ih]; rfl

theorem applyCorrection_rows (components : List (List Nat)) (amb W : Mat) :
    (applyCorrection components amb W).rows = W.rows := by
  rw [applyCorrection]
  suffices h : ∀ (l : List Nat) (W : Mat),
      (l.foldl (fun W i => (components.getD i []).foldl
        (fun W fid => W.addRowVec fid (fun c => amb.get i c)) W) W).rows = W.rows from
    h _ W
  intro l
  induction l with
  | nil => intro W; rfl
  | cons a l ih => intro W; rw [List.foldl_cons, ih, addRowVec_fold_rows]

theorem applyCorrection_cols (components : List (List Nat)) (amb W : Mat) :
    (applyCorrection components amb W).cols = W.cols := by
  rw [applyCorrection]
  suffices h : ∀ (l : List Nat) (W : Mat),
      (l.foldl (fun W i => (components.getD i []).foldl
        (fun W fid => W.addRowVec fid (fun c => amb.get i c)) W) W).cols = W.cols from
    h _ W
  intro l
  induction l with
  | nil => intro W; rfl
  | cons a l ih => intro W; rw [List.foldl_cons, ih, addRowVec_fold_cols]

theorem prepare_ok_dims (O : Oracles) (V : List Vec3) (F : List Face) (labels : List Nat)
    (pre : PrepOut) (h : propagate_prepare O V F labels = Except.ok pre) :
    pre.Wpre.rows = F.length ∧ pre.Wpre.cols = 2 * (labels.foldl max 0 + 1) := by
  rw [propagate_prepare] at h
  obtain ⟨res, hres, hpre⟩ := except_map_ok _ _ _ h
  have hinv := foldlM_ok_invariant _
    (fun acc => acc.1.rows = F.length ∧ acc.1.cols = 2 * (labels.foldl max 0 + 1))
    (by
      intro b a b' hP hstep
      rw [prepStep] at hstep
      obtain ⟨r, hr, hb'⟩ := except_map_ok _ _ _ hstep
      rw [hb']
      exact ⟨by rw [writeComponentRows_rows]; exact hP.1,
        by rw [writeComponentRows_cols]; exact hP.2⟩)
    _ _ res ⟨rfl, rfl⟩ hres
  rw [hpre]
  exact hinv


/-- Claim C1 (amended): the public entry point `propagate_winding_numbers`
returns only the per-face array of `2 x numLabels` integers (the C++
function is `void` with `W` as its sole output parameter); a curve/cycle
inconsistency is non-fatal — the only errors the function can raise are the
odd-degree precondition failure and the adapter's edge error, so an
inconsistent component still yields a best-effort `W` — but no consistency
boolean is returned to the caller: the flag exists only on the inner
single-component routines and is merely logged (source line 773's throw is
commented out). -/
theorem claim_C1 :
    (∀ (O : Oracles) (V : List Vec3) (F : List Face) (labels : List Nat) (M : Mat),
      propagate_winding_numbers O V F labels = Except.ok M →
      M.rows = F.length ∧ M.cols = 2 * (labels.foldl max 0 + 1)) ∧
    (∀ (O : Oracles) (V : List Vec3) (F : List Face) (labels : List Nat) (e : String),
      propagate_winding_numbers O V F labels = Except.error e →
      e = odd_edge_msg ∨ e = edge_err_msg) := by
  constructor
  · intro O V F labels M h
    rw [propagate_winding_numbers] at h
    by_cases hc : ((O.uniqueEdgeMap F).2.2.2).any (fun l => l.length % 2 == 1) = true
    · rw [if_pos hc] at h; cases h
    · rw [if_neg hc] at h
      obtain ⟨pre, hpre, hM⟩ := except_map_ok _ _ _ h
      have hd := prepare_ok_dims O V F labels pre hpre
      rw [hM]
      rw [applyCorrection_rows, applyCorrection_cols]
      exact hd
  · intro O V F labels e h
    rw [propagate_winding_numbers] at h
    by_cases hc : ((O.uniqueEdgeMap F).2.2.2).any (fun l => l.length % 2 == 1) = true
    · rw [if_pos hc] at h; cases h; exact Or.inl rfl
    · rw [if_neg hc] at h
      exact Or.inr (prepare_error _ _ _ _ _ (except_map_error _ _ _ h))

/-- Witness for C1 (amended): the error classification instantiated at the
odd-degree oracle. -/
theorem claim_C1_witness :
    odd_edge_msg = odd_edge_msg ∨ odd_edge_msg = edge_err_msg :=
  claim_C1.2 Oodd V1 F1 labels1 odd_edge_msg rfl

/-- Counterexample to C1 as stated: on mesh 1 the single-component
propagation is inconsistent (inner flag `false`), yet the public entry
point returns a plain `Except.ok` whose payload is just the best-effort
matrix — no consistency boolean accompanies it. -/
theorem claim_C1_counterexample :
    sndFlag (propagate_winding_numbers_single_component O1 V1 F1 labels1) = some false ∧
    exIsOk (propagate_winding_numbers O1 V1 F1 labels1) = true ∧
    exGet (propagate_winding_numbers O1 V1 F1 labels1) 2 0 = -2 ∧
    exGet (propagate_winding_numbers O1 V1 F1 labels1) 2 1 = -1 := by
  refine ⟨by decide, by decide, by decide, by decide⟩



theorem cellDeriveFold_get_other (W : Mat) (curr nb : Nat) (inc : Nat → Int) :
    ∀ (m r c : Nat), r ≠ nb →
      ((List.range m).foldl (fun W i => W.set nb i (W.get curr i + inc i)) W).get r c =
        W.get r c := by
  intro m
  induction m with
  | zero => intro r c _h; rfl
  | succ m ih =>
    intro r c h
    rw [List.range_succ, List.foldl_append, List.foldl_cons, List.foldl_nil,
      Mat.get_set_ne_row _ _ _ _ _ _ h, ih _ _ h]

theorem cellDerive_get_other (W : Mat) (curr nb : Nat) (dir : Bool) (pl L r c : Nat)
    (h : r ≠ nb) : (cellDerive W curr nb dir pl L).get r c = W.get r c := by
  show ((List.range L).foldl (fun W i => W.set nb i (W.get curr i +
      (if pl = i then (if dir then (-1 : Int) else 1) else 0))) (W.copyRow nb curr)).get r c =
    W.get r c
  rw [cellDeriveFold_get_other (W.copyRow nb curr) curr nb _ L r c h, Mat.get_copyRow,
    if_neg h]

theorem cellDerive_get_nb (W : Mat) (curr nb : Nat) (dir : Bool) (pl L : Nat)
    (hne : nb ≠ curr) : ∀ i < L,
      (cellDerive W curr nb dir pl L).get nb i =
        W.get curr i + (if pl = i then (if dir then -1 else 1) else 0) := by
  show ∀ i < L, ((List.range L).foldl (fun W i => W.set nb i (W.get curr i +
      (if pl = i then (if dir then (-1 : Int) else 1) else 0))) (W.copyRow nb curr)).get nb i =
    W.get curr i + (if pl = i then (if dir then -1 else 1) else 0)
  induction L with
  | zero => intro i hi; omega
  | succ m ih =>
    intro i hi
    rw [List.range_succ, List.foldl_append, List.foldl_cons, List.foldl_nil]
    rcases Nat.lt_or_ge i m with him | him
    · rw [Mat.get_set, if_neg (by rintro ⟨-, h2⟩; omega)]
      exact ih i him
    · have hieq : i = m := by omega
      subst hieq
      rw [Mat.get_set, if_pos ⟨rfl, rfl⟩,
        cellDeriveFold_get_other (W.copyRow nb curr) curr nb _ i curr i (Ne.symm hne),
        Mat.get_copyRow, if_neg (Ne.symm hne)]


/-- Claim C7: the claim describes the cell-wise propagator as seeding the
cell on the outer side of the globally outer face with the all-zero
per-label vector and then running a BFS over the cell-adjacency graph that
assigns each newly reached cell the source cell's vector with exactly the
crossed patch's label changed by -1 forward / +1 backward, with the
per-face output read off from the front and back cells.  The seed, the
per-edge derivation rule and the read-off are implemented as described,
but the winding loop of source lines 964-994 never pushes onto its queue
(the seed at line 965 is the only push), so the claimed graph traversal
does not happen: each iteration only consumes the queue (first conjunct),
hence only the infinity cell is ever processed and only its direct
neighbors are assigned.  On the three-cell chain mesh 4 the returned
matrix shows the divergence: face 0 reads (0, 1) and face 1's front reads
1 as claimed, but face 1's back cell — at distance two from the infinity
cell, winding number 2 under the claimed BFS — keeps the `INVALID`
sentinel. -/
theorem claim_C7 :
    (∀ (adj : List (List CellEdge)) (patch_labels : List Nat) (L fuel curr : Nat)
        (Q : List Nat) (W : Mat),
      cellBfsLoop adj patch_labels L (fuel + 1) (curr :: Q) W =
        cellBfsLoop adj patch_labels L fuel Q
          ((adj.getD curr []).foldl (processCellNeighbor patch_labels L curr) W)) ∧
    (propagate_winding_numbers_beta O4 V1 F4 labels4).get 0 0 = 0 ∧
    (propagate_winding_numbers_beta O4 V1 F4 labels4).get 0 1 = 1 ∧
    (propagate_winding_numbers_beta O4 V1 F4 labels4).get 1 0 = 1 ∧
    (propagate_winding_numbers_beta O4 V1 F4 labels4).get 1 1 = INVALID := by
  refine ⟨fun adj patch_labels L fuel curr Q W => rfl, ?_, ?_, ?_, ?_⟩ <;> decide

theorem ambientStepK_get (corrOf : Nat → Int) (j : Nat) (amb : Mat) (k r c : Nat) :
    (ambientStepK corrOf j amb k).get r c =
      if r = j ∧ c / 2 = k then amb.get r c + corrOf k else amb.get r c := by
  unfold ambientStepK
  rw [Mat.get_set, Mat.get_set]
  by_cases h1 : r = j ∧ c = 2 * k + 1
  · obtain ⟨rfl, rfl⟩ := h1
    rw [if_pos ⟨rfl, rfl⟩, if_pos ⟨rfl, by omega⟩]
  · rw [if_neg h1]
    by_cases h2 : r = j ∧ c = 2 * k
    · obtain ⟨rfl, rfl⟩ := h2
      rw [if_pos ⟨rfl, rfl⟩, if_pos ⟨rfl, by omega⟩]
    · rw [if_neg h2, if_neg ?_]
      rintro ⟨rfl, hc⟩
      have hor : c = 2 * k ∨ c = 2 * k + 1 := by omega
      rcases hor with h | h
      · exact h2 ⟨rfl, h⟩
      · exact h1 ⟨rfl, h⟩

theorem ambientK_fold_get (corrOf : Nat → Int) (j : Nat) :
    ∀ (l : List Nat) (amb : Mat) (r c : Nat),
      ((l.foldl (ambientStepK corrOf j) amb).get r c) =
        amb.get r c + (if r = j then (l.count (c / 2) : Int) * corrOf (c / 2) else 0) := by
  intro l
  induction l with
  | nil => intro amb r c; simp
  | cons k l ih =>
    intro amb r c
    rw [List.foldl_cons, ih, ambientStepK_get]
    by_cases h : r = j ∧ c / 2 = k
    · obtain ⟨rfl, hk⟩ := h
      subst hk
      rw [if_pos ⟨rfl, rfl⟩, if_pos rfl, if_pos rfl, List.count_cons]
      simp only [beq_self_eq_true, if_pos rfl, if_true]
      push_cast
      ring
    · by_cases hr : r = j
      · subst hr
        have hk : c / 2 ≠ k := fun hc => h ⟨rfl, hc⟩
        rw [if_neg h, if_pos rfl, if_pos rfl, List.count_cons]
        have : (k == c / 2) = false := by simp [Ne.symm hk]
        rw [this]
        push_cast
        ring
      · rw [if_neg h, if_neg hr, if_neg hr]


theorem ambientStepI_get (O : Oracles) (V : List Vec3) (comps : List (List Nat))
    (cf : List (List Face)) (Wpre : Mat) (n L : Nat) (amb : Mat) (i j c : Nat) :
    (ambientStepI O V comps cf Wpre n L amb i).get j c =
      amb.get j c + (if i = j then 0 else
        ((List.range n).count j : Int) *
          (((List.range L).count (c / 2) : Int) *
            ambientContrib O V comps cf Wpre n i j (c / 2))) := by
  rw [ambientStepI]
  suffices h : ∀ (lj : List Nat) (amb : Mat),
      ((lj.foldl (fun amb j' => if i = j' then amb
        else (List.range L).foldl
          (ambientStepK (ambientContrib O V comps cf Wpre n i j') j') amb) amb).get j c) =
        amb.get j c + (if i = j then 0 else
          (lj.count j : Int) * (((List.range L).count (c / 2) : Int) *
            ambientContrib O V comps cf Wpre n i j (c / 2))) from h (List.range n) amb
  intro lj
  induction lj with
  | nil => intro amb; by_cases hij : i = j <;> simp [hij]
  | cons j' lj ih =>
    intro amb
    rw [List.foldl_cons, ih]
    by_cases hj' : i = j'
    · rw [if_pos hj', List.count_cons]
      by_cases hij : i = j
      · rw [if_pos hij, if_pos hij]
      · rw [if_neg hij, if_neg hij]
        have : (j' == j) = false := by
          simp only [beq_eq_false_iff_ne]
          intro hc
          exact hij (hj'.trans hc)
        rw [this]
        push_cast
        ring
    · rw [if_neg hj', ambientK_fold_get]
      by_cases hjj : j = j'
      · subst hjj
        have hij : ¬ i = j := fun hc => hj' hc
        rw [if_pos rfl, if_neg hij, if_neg hij, List.count_cons]
        simp only [beq_self_eq_true, if_true]
        push_cast
        ring
      · rw [if_neg hjj]
        by_cases hij : i = j
        · rw [if_pos hij, if_pos hij]
          ring
        · rw [if_neg hij, if_neg hij, List.count_cons]
          have : (j' == j) = false := by
            simp only [beq_eq_false_iff_ne]
            exact Ne.symm hjj
          rw [this]
          push_cast
          ring

theorem ambientI_fold_get (O : Oracles) (V : List Vec3) (comps : List (List Nat))
    (cf : List (List Face)) (Wpre : Mat) (n L : Nat) :
    ∀ (li : List Nat) (amb : Mat) (j c : Nat),
      ((li.foldl (ambientStepI O V comps cf Wpre n L) amb).get j c) =
        amb.get j c + ((li.filter (fun i => i ≠ j)).map (fun i =>
          ((List.range n).count j : Int) *
            (((List.range L).count (c / 2) : Int) *
              ambientContrib O V comps cf Wpre n i j (c / 2)))).sum := by
  intro li
  induction li with
  | nil => intro amb j c; simp
  | cons i li ih =>
    intro amb j c
    rw [List.foldl_cons, ih, ambientStepI_get]
    by_cases hij : i = j
    · rw [if_pos hij]
      have : (i :: li).filter (fun i => i ≠ j) = li.filter (fun i => i ≠ j) := by
        rw [List.filter_cons]
        simp [hij]
      rw [this]
      ring
    · rw [if_neg hij]
      have : (i :: li).filter (fun i => i ≠ j) = i :: li.filter (fun i => i ≠ j) := by
        rw [List.filter_cons]
        simp [hij]
      rw [this, List.map_cons, List.sum_cons]
      ring


theorem count_range (n k : Nat) : (List.range n).count k = if k < n then 1 else 0 := by
  by_cases h : k < n
  · rw [if_pos h]
    exact List.count_eq_one_of_mem (List.nodup_range n) (List.mem_range.mpr h)
  · rw [if_neg h]
    exact List.count_eq_zero_of_not_mem (fun hc => h (List.mem_range.mp hc))

theorem addRowVec_fold_get (v : Nat → Int) :
    ∀ (l : List Nat) (W : Mat) (r c : Nat),
      ((l.foldl (fun W fid => W.addRowVec fid v) W).get r c) =
        W.get r c + (l.count r : Int) * v c := by
  intro l
  induction l with
  | nil => intro W r c; simp
  | cons a l ih =>
    intro W r c
    rw [List.foldl_cons, ih, Mat.get_addRowVec, List.count_cons]
    by_cases h : r = a
    · subst h
      rw [if_pos rfl]
      simp only [beq_self_eq_true, if_true]
      push_cast
      ring
    · rw [if_neg h]
      have : (a == r) = false := by
        simp only [beq_eq_false_iff_ne]
        exact Ne.symm h
      rw [this]
      push_cast
      ring

theorem applyCorrection_get (comps : List (List Nat)) (amb W : Mat) (r c : Nat) :
    (applyCorrection comps amb W).get r c =
      W.get r c + ((List.range comps.length).map (fun i =>
        ((comps.getD i []).count r : Int) * amb.get i c)).sum := by
  rw [applyCorrection]
  suffices h : ∀ (li : List Nat) (W : Mat),
      ((li.foldl (fun W i => (comps.getD i []).foldl
        (fun W fid => W.addRowVec fid (fun c => amb.get i c)) W) W).get r c) =
        W.get r c + (li.map (fun i =>
          ((comps.getD i []).count r : Int) * amb.get i c)).sum from
    h (List.range comps.length) W
  intro li
  induction li with
  | nil => intro W; simp
  | cons i li ih =>
    intro W
    rw [List.foldl_cons, ih, addRowVec_fold_get, List.map_cons, List.sum_cons]
    ring

theorem ambientCorrection_spec (O : Oracles) (V : List Vec3) (comps : List (List Nat))
    (cf : List (List Face)) (Wpre : Mat) (n L : Nat) :
    (n ≤ 1 → ∀ j c, (ambientCorrection O V comps cf Wpre n L).get j c = 0) ∧
    (1 < n → ∀ j c, (ambientCorrection O V comps cf Wpre n L).get j c =
      (((List.range n).filter (fun i => i ≠ j)).map (fun i =>
        ((List.range n).count j : Int) *
          (((List.range L).count (c / 2) : Int) *
            ambientContrib O V comps cf Wpre n i j (c / 2)))).sum) := by
  constructor
  · intro hn j c
    rw [ambientCorrection, if_neg (by omega)]
    rfl
  · intro hn j c
    rw [ambientCorrection, if_pos hn, ambientI_fold_get]
    simp [Mat.get_const]


theorem filter_range_structure (n i : Nat) (hi : i < n) :
    (List.range n).filter (fun j => j ≠ i) =
      List.range i ++ (List.range (n - i - 1)).map (fun x => i + 1 + x) := by
  have h1 : n = i + (1 + (n - i - 1)) := by omega
  rw [h1, List.range_add, List.filter_append]
  have h2 : (List.range i).filter (fun j => decide (j ≠ i)) = List.range i := by
    rw [List.filter_eq_self]
    intro a ha
    have := List.mem_range.mp ha
    simp only [decide_eq_true_eq]
    omega
  have h3 : List.range (1 + (n - i - 1)) = 0 :: (List.range (n - i - 1)).map Nat.succ := by
    rw [Nat.add_comm 1 (n - i - 1)]
    exact List.range_succ_eq_map (n - i - 1)
  rw [h2, h3]
  simp only [List.map_cons, List.filter_cons, Nat.add_zero]
  rw [if_neg (by simp)]
  congr 1
  rw [List.map_map, List.filter_map]
  have h4 : (List.range (n - i - 1)).filter ((fun j => decide (j ≠ i)) ∘
      ((fun x => i + x) ∘ Nat.succ)) = List.range (n - i - 1) := by
    rw [List.filter_eq_self]
    intro a _ha
    simp only [Function.comp_apply, decide_eq_true_eq]
    omega
  rw [h4]
  have h5 : i + (1 + (n - i - 1)) - i - 1 = n - i - 1 := by omega
  rw [h5]
  congr 1
  funext x
  simp only [Function.comp_apply]
  omega

theorem samplesFor_getD (V : List Vec3) (cf : List (List Face)) (n i j : Nat)
    (hj : j < n) (hne : j ≠ i) (hi : i < n) :
    (samplesFor V cf n i).getD (if j < i then j else j - 1) (0, 0, 0) =
      sample_component V (cf.getD j []) := by
  rw [samplesFor, filter_range_structure n i hi, List.map_append]
  by_cases hji : j < i
  · rw [if_pos hji]
    rw [List.getD_append _ _ _ _ (by simpa using hji)]
    rw [List.getD_eq_getElem _ _ (by simpa using hji)]
    simp
  · rw [if_neg hji]
    have hgt : i < j := by omega
    rw [List.getD_append_right _ _ _ _ (by simp; omega)]
    have hlen : ((List.range i).map (fun j => sample_component V (cf.getD j []))).length = i := by
      simp
    rw [hlen]
    rw [List.getD_eq_getElem _ _ (by simp; omega)]
    simp only [List.getElem_map, List.getElem_range]
    congr 2
    omega

theorem ambient_front_eq_back (O : Oracles) (V : List Vec3) (comps : List (List Nat))
    (cf : List (List Face)) (Wpre : Mat) (n L j k : Nat) :
    (ambientCorrection O V comps cf Wpre n L).get j (2 * k) =
      (ambientCorrection O V comps cf Wpre n L).get j (2 * k + 1) := by
  by_cases hn : 1 < n
  · rw [(ambientCorrection_spec O V comps cf Wpre n L).2 hn j (2 * k),
      (ambientCorrection_spec O V comps cf Wpre n L).2 hn j (2 * k + 1)]
    have h1 : 2 * k / 2 = k := by omega
    have h2 : (2 * k + 1) / 2 = k := by omega
    rw [h1, h2]
  · rw [(ambientCorrection_spec O V comps cf Wpre n L).1 (by omega) j (2 * k),
      (ambientCorrection_spec O V comps cf Wpre n L).1 (by omega) j (2 * k + 1)]

/-- Claim C6: for several connected components, the nesting corrector
accumulates, for every ordered pair `(i, j)` with `i ≠ j`, the entry of the
pre-correction matrix at the face of component `i` returned by the
containment query for component `j`'s sample, on the side selected by the
orientation flag (`ambientContrib`), into both columns of component `j`'s
ambient correction row (first conjunct); the sample row consumed for the
pair is the centroid of component `j`'s first face (second conjunct); the
correction is zero with a single component (third conjunct); the mutation
phase adds each component's accumulated row to every one of its faces'
rows of the pre-correction matrix (fourth conjunct); and the public entry
point is exactly this strictly ordered read-all-then-mutate composition:
first every component's propagation finishes (`propagate_prepare`), then
the correction is computed from the finished pre-correction matrix and
applied (fifth conjunct). -/
theorem claim_C6 :
    (∀ (O : Oracles) (V : List Vec3) (comps : List (List Nat)) (cf : List (List Face))
        (Wpre : Mat) (n L j k : Nat), 1 < n → j < n → k < L →
      (ambientCorrection O V comps cf Wpre n L).get j (2 * k) =
        (((List.range n).filter (fun i => i ≠ j)).map (fun i =>
          ambientContrib O V comps cf Wpre n i j k)).sum ∧
      (ambientCorrection O V comps cf Wpre n L).get j (2 * k + 1) =
        (((List.range n).filter (fun i => i ≠ j)).map (fun i =>
          ambientContrib O V comps cf Wpre n i j k)).sum) ∧
    (∀ (V : List Vec3) (cf : List (List Face)) (n i j : Nat), j < n → j ≠ i → i < n →
      (samplesFor V cf n i).getD (if j < i then j else j - 1) (0, 0, 0) =
        v3div3 (v3add (v3add (V.getD ((cf.getD j []).getD 0 (0, 0, 0)).1 (0, 0, 0))
          (V.getD ((cf.getD j []).getD 0 (0, 0, 0)).2.1 (0, 0, 0)))
          (V.getD ((cf.getD j []).getD 0 (0, 0, 0)).2.2 (0, 0, 0)))) ∧
    (∀ (O : Oracles) (V : List Vec3) (comps : List (List Nat)) (cf : List (List Face))
        (Wpre : Mat) (n L : Nat), n ≤ 1 → ∀ j c,
      (ambientCorrection O V comps cf Wpre n L).get j c = 0) ∧
    (∀ (comps : List (List Nat)) (amb W : Mat) (r c : Nat),
      (applyCorrection comps amb W).get r c =
        W.get r c + ((List.range comps.length).map (fun i =>
          ((comps.getD i []).count r : Int) * amb.get i c)).sum) ∧
    (∀ (O : Oracles) (V : List Vec3) (F : List Face) (labels : List Nat) (pre : PrepOut),
      propagate_prepare O V F labels = Except.ok pre →
      ¬(((O.uniqueEdgeMap F).2.2.2).any (fun l => l.length % 2 == 1) = true) →
      propagate_winding_numbers O V F labels = Except.ok
        (applyCorrection pre.components
          (ambientCorrection O V pre.components pre.compFaces pre.Wpre
            pre.numComponents pre.numLabels)
          pre.Wpre)) := by
  refine ⟨?_, ?_, ?_, ?_, ?_⟩
  · intro O V comps cf Wpre n L j k hn hj hk
    have h1 : 2 * k / 2 = k := by omega
    have h2 : (2 * k + 1) / 2 = k := by omega
    constructor
    · rw [(ambientCorrection_spec O V comps cf Wpre n L).2 hn j (2 * k), h1,
        count_range, count_range, if_pos hj, if_pos hk]
      simp only [Nat.cast_one, one_mul]
    · rw [(ambientCorrection_spec O V comps cf Wpre n L).2 hn j (2 * k + 1), h2,
        count_range, count_range, if_pos hj, if_pos hk]
      simp only [Nat.cast_one, one_mul]
  · intro V cf n i j hj hne hi
    exact samplesFor_getD V cf n i j hj hne hi
  · intro O V comps cf Wpre n L hn j c
    exact (ambientCorrection_spec O V comps cf Wpre n L).1 hn j c
  · intro comps amb W r c
    exact applyCorrection_get comps amb W r c
  · intro O V F labels pre hpre hodd
    rw [propagate_winding_numbers, if_neg hodd, hpre]
    rfl

/-- Witness for C6: on the two-component mesh 2 the ambient correction of
component 0 receives the containment contribution 1 of component 1 on both
sides of label 1, and a single component receives zero. -/
theorem claim_C6_witness :
    (ambientCorrection O2 V2 [[0], [1]] [[(0, 1, 2)], [(3, 4, 5)]] Wpre2 2 2).get 0 2 = 1 ∧
    (ambientCorrection O2 V2 [[0], [1]] [[(0, 1, 2)], [(3, 4, 5)]] Wpre2 2 2).get 0 3 = 1 ∧
    (ambientCorrection O2 V2 [[0], [1]] [[(0, 1, 2)], [(3, 4, 5)]] Wpre2 1 2).get 0 2 = 0 := by
  have h := claim_C6.1 O2 V2 [[0], [1]] [[(0, 1, 2)], [(3, 4, 5)]] Wpre2 2 2 0 1
    (by decide) (by decide) (by decide)
  refine ⟨?_, ?_, ?_⟩
  · rw [h.1]; decide
  · rw [h.2]; decide
  · exact claim_C6.2.2.1 O2 V2 [[0], [1]] [[(0, 1, 2)], [(3, 4, 5)]] Wpre2 1 2
      (by decide) 0 2


/-- Claim C10: the nesting correction adds the same integer to the front
entry `W(f, 2k)` and the back entry `W(f, 2k+1)` of every face of a
component, so for every face and label the difference between front and
back entries is identical before and after the correction phase. -/
theorem claim_C10 :
    (∀ (O : Oracles) (V : List Vec3) (comps : List (List Nat)) (cf : List (List Face))
        (Wpre : Mat) (n L j k : Nat),
      (ambientCorrection O V comps cf Wpre n L).get j (2 * k) =
        (ambientCorrection O V comps cf Wpre n L).get j (2 * k + 1)) ∧
    (∀ (O : Oracles) (V : List Vec3) (comps : List (List Nat)) (cf : List (List Face))
        (Wpre : Mat) (n L f k : Nat),
      (applyCorrection comps (ambientCorrection O V comps cf Wpre n L) Wpre).get f (2 * k) -
        (applyCorrection comps (ambientCorrection O V comps cf Wpre n L) Wpre).get f
          (2 * k + 1) =
        Wpre.get f (2 * k) - Wpre.get f (2 * k + 1)) ∧
    (∀ (O : Oracles) (V : List Vec3) (F : List Face) (labels : List Nat) (pre : PrepOut),
      propagate_prepare O V F labels = Except.ok pre →
      ∀ M : Mat, propagate_winding_numbers O V F labels = Except.ok M →
      ∀ f k : Nat, M.get f (2 * k) - M.get f (2 * k + 1) =
        pre.Wpre.get f (2 * k) - pre.Wpre.get f (2 * k + 1)) := by
  have hdiff : ∀ (O : Oracles) (V : List Vec3) (comps : List (List Nat))
      (cf : List (List Face)) (Wpre : Mat) (n L f k : Nat),
      (applyCorrection comps (ambientCorrection O V comps cf Wpre n L) Wpre).get f (2 * k) -
        (applyCorrection comps (ambientCorrection O V comps cf Wpre n L) Wpre).get f
          (2 * k + 1) =
        Wpre.get f (2 * k) - Wpre.get f (2 * k + 1) := by
    intro O V comps cf Wpre n L f k
    rw [applyCorrection_get, applyCorrection_get]
    have hsum : ((List.range comps.length).map (fun i =>
        ((comps.getD i []).count f : Int) *
          (ambientCorrection O V comps cf Wpre n L).get i (2 * k))).sum =
        ((List.range comps.length).map (fun i =>
        ((comps.getD i []).count f : Int) *
          (ambientCorrection O V comps cf Wpre n L).get i (2 * k + 1))).sum := by
      congr 1
      apply List.map_congr_left
      intro i _hi
      rw [ambient_front_eq_back]
    rw [hsum]
    ring
  refine ⟨?_, hdiff, ?_⟩
  · intro O V comps cf Wpre n L j k
    exact ambient_front_eq_back O V comps cf Wpre n L j k
  · intro O V F labels pre hpre M hM f k
    rw [propagate_winding_numbers] at hM
    by_cases hc : ((O.uniqueEdgeMap F).2.2.2).any (fun l => l.length % 2 == 1) = true
    · rw [if_pos hc] at hM; cases hM
    · rw [if_neg hc, hpre] at hM
      simp only [Except.map] at hM
      cases hM
      exact hdiff O V pre.components pre.compFaces pre.Wpre pre.numComponents
        pre.numLabels f k

/-- Witness for C10: on mesh 2 the final front/back difference for face 0,
label 1 equals the pre-correction difference 0. -/
theorem claim_C10_witness :
    exGet (propagate_winding_numbers O2 V2 F2 labels2) 0 2 -
      exGet (propagate_winding_numbers O2 V2 F2 labels2) 0 3 = 0 := by
  cases hpre : propagate_prepare O2 V2 F2 labels2 with
  | error e =>
    have hok : exIsOk (propagate_winding_numbers O2 V2 F2 labels2) = true := by decide
    rw [propagate_winding_numbers, if_neg (by decide), hpre] at hok
    simp [Except.map, exIsOk] at hok
  | ok pre =>
    cases hM : propagate_winding_numbers O2 V2 F2 labels2 with
    | error e =>
      have hok : exIsOk (propagate_winding_numbers O2 V2 F2 labels2) = true := by decide
      rw [hM] at hok
      simp [exIsOk] at hok
    | ok M =>
      have h := claim_C10.2.2 O2 V2 F2 labels2 pre hpre M hM 0 1
      have h2 : preWpreGet (propagate_prepare O2 V2 F2 labels2) 0 2 = 0 := by decide
      have h3 : preWpreGet (propagate_prepare O2 V2 F2 labels2) 0 3 = 0 := by decide
      rw [hpre] at h2 h3
      simp only [preWpreGet] at h2 h3
      norm_num at h
      simp only [exGet]
      rw [h, h2, h3]
      norm_num



theorem ucount_le (W : Mat) (N : Nat) : ucount W N ≤ N := by
  calc ucount W N ≤ (Finset.range N).card := Finset.card_filter_le _ _
    _ = N := Finset.card_range N

theorem ucount_after (W W' : Mat) (N : Nat) (pushed : List Nat)
    (hcols : W'.cols = W.cols)
    (h2 : ∀ r c, r ∉ pushed → W'.get r c = W.get r c)
    (h3 : ∀ q ∈ pushed, winding_num_assigned W q = false ∧
      winding_num_assigned W' q = true ∧ q < N)
    (h4 : pushed.Nodup) :
    ucount W' N + pushed.length = ucount W N := by
  have hsubset : pushed.toFinset ⊆
      (Finset.range N).filter (fun p => winding_num_assigned W p = false) := by
    intro q hq
    rw [List.mem_toFinset] at hq
    rw [Finset.mem_filter, Finset.mem_range]
    exact ⟨(h3 q hq).2.2, (h3 q hq).1⟩
  have hext : (Finset.range N).filter (fun p => winding_num_assigned W' p = false) =
      ((Finset.range N).filter (fun p => winding_num_assigned W p = false)) \
        pushed.toFinset := by
    apply Finset.ext
    intro q
    simp only [Finset.mem_filter, Finset.mem_sdiff, Finset.mem_range, List.mem_toFinset]
    constructor
    · rintro ⟨hqN, hq⟩
      have hqp : q ∉ pushed := by
        intro hc
        rw [(h3 q hc).2.1] at hq
        cases hq
      refine ⟨⟨hqN, ?_⟩, hqp⟩
      rw [← winding_num_assigned_congr W W' q hcols (fun c => h2 q c hqp)]
      exact hq
    · rintro ⟨⟨hqN, hq⟩, hqp⟩
      refine ⟨hqN, ?_⟩
      rw [winding_num_assigned_congr W W' q hcols (fun c => h2 q c hqp)]
      exact hq
  have hcard := Finset.card_sdiff hsubset
  have hlen : pushed.toFinset.card = pushed.length := List.toFinset_card_of_nodup h4
  have hle := Finset.card_le_card hsubset
  rw [ucount, ucount, hext, hcard, hlen]
  rw [hlen] at hle
  omega

theorem bound_transfer (W W' : Mat) (N L : Nat) (pushed : List Nat)
    (hcols : W'.cols = W.cols)
    (h2 : ∀ r c, r ∉ pushed → W'.get r c = W.get r c)
    (h3 : ∀ q ∈ pushed, winding_num_assigned W q = false ∧
      winding_num_assigned W' q = true ∧ q < N)
    (h4 : pushed.Nodup)
    (hb : ∀ r, winding_num_assigned W r = true → ∀ c < 2 * L,
      W.get r c ≤ (N : Int) + 1 - ucount W N)
    (hpv : ∀ q ∈ pushed, ∀ c < 2 * L, W'.get q c ≤ (N : Int) + 2 - ucount W N) :
    ∀ r, winding_num_assigned W' r = true → ∀ c < 2 * L,
      W'.get r c ≤ (N : Int) + 1 - ucount W' N := by
  have hu := ucount_after W W' N pushed hcols h2 h3 h4
  intro r hr c hc
  by_cases hrp : r ∈ pushed
  · have hv := hpv r hrp c hc
    have hlen : 1 ≤ pushed.length := List.length_pos.mpr (List.ne_nil_of_mem hrp)
    omega
  · have hrw : ∀ c, W'.get r c = W.get r c := fun c => h2 r c hrp
    have hra : winding_num_assigned W r = true := by
      rw [← winding_num_assigned_congr W W' r hcols hrw]
      exact hr
    have hv := hb r hra c hc
    rw [hrw]
    omega


theorem deriveNext_row_le (W : Mat) (curr np : Nat) (co no : Bool) (nl L : Nat) (B : Int)
    (hne : np ≠ curr) (hv : ∀ c < 2 * L, W.get curr c ≤ B) :
    ∀ c < 2 * L, (deriveNext W curr np co no nl L).get np c ≤ B + 1 := by
  intro c hc
  have hce : c = 2 * (c / 2) + c % 2 := by omega
  rw [hce]
  have hb := hv (2 * (c / 2)) (by omega)
  rcases deriveNext_vals W curr np co no nl L hne (c / 2) (by omega) (c % 2) (by omega)
    with h | h | h <;> rw [h] <;> omega

theorem derivePrev_row_le (W : Mat) (curr pp : Nat) (co po : Bool) (pl L : Nat) (B : Int)
    (hne : pp ≠ curr) (hv : ∀ c < 2 * L, W.get curr c ≤ B) :
    ∀ c < 2 * L, (derivePrev W curr pp co po pl L).get pp c ≤ B + 1 := by
  intro c hc
  have hce : c = 2 * (c / 2) + c % 2 := by omega
  rw [hce]
  have hb := hv (2 * (c / 2) + 1) (by omega)
  rcases derivePrev_vals W curr pp co po pl L hne (c / 2) (by omega) (c % 2) (by omega)
    with h | h | h <;> rw [h] <;> omega

theorem rowSafe_of_bound (W : Mat) (p N : Nat) (L : Nat) (hcols : W.cols = 2 * L)
    (HN : (N : Int) + 2 < INVALID)
    (hb : ∀ c < 2 * L, W.get p c ≤ (N : Int) + 1 - ucount W N) : rowSafe W p := by
  intro c hc
  rw [hcols] at hc
  have hv := hb c hc
  have hu : ucount W N ≤ N := ucount_le W N
  refine ⟨?_, ?_, ?_⟩ <;> omega


theorem PCSpec_mono {N L : Nat} {W W1 : Mat} {pc : List Nat} (h : PCSpec N L W W1 pc) :
    ∀ r, winding_num_assigned W r = true →
      winding_num_assigned W1 r = true ∧ ∀ c, W1.get r c = W.get r c := by
  intro r hr
  have hrp : r ∉ pc := by
    intro hc
    rw [(h.2.2.1 r hc).1] at hr
    cases hr
  have hrow : ∀ c, W1.get r c = W.get r c := fun c => h.2.1 r c hrp
  exact ⟨by rw [winding_num_assigned_congr W W1 r h.1 hrow]; exact hr, hrow⟩

theorem PCSpec_refl (N L : Nat) (W : Mat)
    (hb : ∀ r, winding_num_assigned W r = true → ∀ c < 2 * L,
      W.get r c ≤ (N : Int) + 1 - ucount W N) : PCSpec N L W W [] := by
  refine ⟨rfl, fun r c _ => rfl, fun q hq => absurd hq (List.not_mem_nil q), List.nodup_nil, hb⟩

theorem PCSpec_comp {N L : Nat} {W W1 W2 : Mat} {pc pc' : List Nat}
    (h1 : PCSpec N L W W1 pc) (h2 : PCSpec N L W1 W2 pc') :
    PCSpec N L W W2 (pc ++ pc') := by
  obtain ⟨hc1, hr1, hf1, hn1, hb1⟩ := h1
  obtain ⟨hc2, hr2, hf2, hn2, hb2⟩ := h2
  refine ⟨hc2.trans hc1, ?_, ?_, ?_, hb2⟩
  · intro r c hr
    rw [List.mem_append] at hr
    push_neg at hr
    rw [hr2 r c hr.2, hr1 r c hr.1]
  · intro q hq
    rw [List.mem_append] at hq
    rcases hq with hq | hq
    · have h := hf1 q hq
      have hmono := PCSpec_mono ⟨hc2, hr2, hf2, hn2, hb2⟩ q h.2.1
      exact ⟨h.1, hmono.1, h.2.2⟩
    · have h := hf2 q hq
      refine ⟨?_, h.2.1, h.2.2⟩
      by_cases hqpc : q ∈ pc
      · exact (hf1 q hqpc).1
      · have hrow : ∀ c, W1.get q c = W.get q c := fun c => hr1 q c hqpc
        rw [← winding_num_assigned_congr W W1 q hc1 hrow]
        exact h.1
  · rw [List.nodup_append]
    refine ⟨hn1, hn2, ?_⟩
    intro q hq hq'
    have ha := (hf1 q hq).2.1
    rw [(hf2 q hq').1] at ha
    cases ha


theorem processCurve_spec9_aux (labels order : List Nat) (orient : List Bool)
    (L p N ci ni pri np pp : Nat) (W : Mat)
    (hci : order.findIdx? (· == p) = some ci)
    (hni : ni = if orient.getD ci false then (ci + 1) % order.length
      else (ci + order.length - 1) % order.length)
    (hpri : pri = if orient.getD ci false then (ci + order.length - 1) % order.length
      else (ci + 1) % order.length)
    (hnp : np = order.getD ni 0)
    (hpp : pp = order.getD pri 0)
    (Horder : ∀ q ∈ order, q < N) (HN : (N : Int) + 2 < INVALID)
    (hcols : W.cols = 2 * L)
    (hp : winding_num_assigned W p = true)
    (hb : ∀ r, winding_num_assigned W r = true → ∀ c < 2 * L,
      W.get r c ≤ (N : Int) + 1 - ucount W N) :
    PCSpec N L W (processCurve labels order orient L p W).1
      (processCurve labels order orient L p W).2 ∧
    (∀ q ∈ curveNeighbors order orient p,
      winding_num_assigned (processCurve labels order orient L p W).1 q = true) := by
  have hlen : 0 < order.length := by
    cases order with
    | nil => simp at hci
    | cons a l => simp
  have hnilt : ni < order.length := by
    rw [hni]; split <;> exact Nat.mod_lt _ hlen
  have hprlt : pri < order.length := by
    rw [hpri]; split <;> exact Nat.mod_lt _ hlen
  have hnpN : np < N := by
    rw [hnp]
    exact Horder _ (by rw [List.getD_eq_getElem _ _ hnilt]; exact List.getElem_mem _)
  have hppN : pp < N := by
    rw [hpp]
    exact Horder _ (by rw [List.getD_eq_getElem _ _ hprlt]; exact List.getElem_mem _)
  have hsafeW : rowSafe W p := rowSafe_of_bound W p N L hcols HN (hb p hp)
  have hcn : curveNeighbors order orient p = [np, pp] := by
    simp only [curveNeighbors, hci]
    rw [← hni, ← hpri, ← hnp, ← hpp]
  have hredbase := processCurve_cases labels order orient L p W ci hci
  simp only [] at hredbase
  rw [← hni, ← hpri, ← hnp, ← hpp] at hredbase
  cases hA : winding_num_assigned W np with
  | true =>
    cases hB : winding_num_assigned W pp with
    | true =>
      have hred : processCurve labels order orient L p W = (W, []) := by
        rw [hredbase]
        simp only [hA, hB, if_true, List.append_nil, List.nil_append]
      rw [hred, hcn]
      refine ⟨PCSpec_refl N L W hb, ?_⟩
      intro q hq
      rcases List.mem_pair.mp hq with h | h <;> rw [h]
      · exact hA
      · exact hB
    | false =>
      have hppp : pp ≠ p := by
        intro h; rw [h, hp] at hB; cases hB
      have hred : processCurve labels order orient L p W =
          (derivePrev W p pp (orient.getD ci false) (orient.getD pri false)
            (labels.getD pp 0) L, [pp]) := by
        rw [hredbase]
        simp only [hA, hB, if_true, Bool.false_eq_true, if_false, List.append_nil,
          List.nil_append]
      rw [hred, hcn]
      have hassigned := derivePrev_assigned W p pp (orient.getD ci false)
        (orient.getD pri false) (labels.getD pp 0) L hppp hcols hsafeW
      have hspec : PCSpec N L W
          (derivePrev W p pp (orient.getD ci false) (orient.getD pri false)
            (labels.getD pp 0) L) [pp] := by
        refine ⟨derivePrev_cols _ _ _ _ _ _ _, ?_, ?_, List.nodup_singleton _, ?_⟩
        · intro r c hr
          exact derivePrev_get_other _ _ _ _ _ _ _ _ _ (by simpa using hr)
        · intro q hq
          rw [List.mem_singleton] at hq
          rw [hq]
          exact ⟨hB, hassigned, hppN⟩
        · refine bound_transfer W _ N L [pp] (derivePrev_cols _ _ _ _ _ _ _) ?_ ?_
            (List.nodup_singleton pp) hb ?_
          · intro r c hr
            exact derivePrev_get_other _ _ _ _ _ _ _ _ _ (by simpa using hr)
          · intro q hq
            rw [List.mem_singleton] at hq
            rw [hq]
            exact ⟨hB, hassigned, hppN⟩
          · intro q hq
            rw [List.mem_singleton] at hq
            rw [hq]
            have hvals : ∀ c < 2 * L, W.get p c ≤ (N : Int) + 1 - ucount W N := hb p hp
            have h3 := derivePrev_row_le W p pp (orient.getD ci false)
              (orient.getD pri false) (labels.getD pp 0) L
              ((N : Int) + 1 - ucount W N) hppp hvals
            intro c hc
            have h2 := h3 c hc
            omega
      refine ⟨hspec, ?_⟩
      intro q hq
      rcases List.mem_pair.mp hq with h | h <;> rw [h]
      · by_cases hqpp : np = pp
        · rw [hqpp]; exact hassigned
        · have hrow : ∀ c, (derivePrev W p pp (orient.getD ci false)
              (orient.getD pri false) (labels.getD pp 0) L).get np c = W.get np c :=
            fun c => derivePrev_get_other _ _ _ _ _ _ _ _ _ hqpp
          rw [winding_num_assigned_congr W _ _ (derivePrev_cols _ _ _ _ _ _ _) hrow]
          exact hA
      · exact hassigned
  | false =>
    have hpnp : np ≠ p := by
      intro h; rw [h, hp] at hA; cases hA
    have hW1np := deriveNext_assigned W p np (orient.getD ci false)
      (orient.getD ni false) (labels.getD np 0) L hpnp hcols hsafeW
    have hPC1 : PCSpec N L W
        (deriveNext W p np (orient.getD ci false) (orient.getD ni false)
          (labels.getD np 0) L) [np] := by
      refine ⟨deriveNext_cols _ _ _ _ _ _ _, ?_, ?_, List.nodup_singleton _, ?_⟩
      · intro r c hr
        exact deriveNext_get_other _ _ _ _ _ _ _ _ _ (by simpa using hr)
      · intro q hq
        rw [List.mem_singleton] at hq
        rw [hq]
        exact ⟨hA, hW1np, hnpN⟩
      · refine bound_transfer W _ N L [np] (deriveNext_cols _ _ _ _ _ _ _) ?_ ?_
          (List.nodup_singleton np) hb ?_
        · intro r c hr
          exact deriveNext_get_other _ _ _ _ _ _ _ _ _ (by simpa using hr)
        · intro q hq
          rw [List.mem_singleton] at hq
          rw [hq]
          exact ⟨hA, hW1np, hnpN⟩
        · intro q hq
          rw [List.mem_singleton] at hq
          rw [hq]
          have hvals : ∀ c < 2 * L, W.get p c ≤ (N : Int) + 1 - ucount W N := hb p hp
          have h3 := deriveNext_row_le W p np (orient.getD ci false)
            (orient.getD ni false) (labels.getD np 0) L
            ((N : Int) + 1 - ucount W N) hpnp hvals
          intro c hc
          have h2 := h3 c hc
          omega
    have hW1p : winding_num_assigned
        (deriveNext W p np (orient.getD ci false) (orient.getD ni false)
          (labels.getD np 0) L) p = true := (PCSpec_mono hPC1 p hp).1
    cases hB : winding_num_assigned
        (deriveNext W p np (orient.getD ci false) (orient.getD ni false)
          (labels.getD np 0) L) pp with
    | true =>
      have hred : processCurve labels order orient L p W =
          (deriveNext W p np (orient.getD ci false) (orient.getD ni false)
            (labels.getD np 0) L, [np]) := by
        rw [hredbase]
        simp only [hA, hB, if_true, Bool.false_eq_true, if_false, List.append_nil,
          List.nil_append]
      rw [hred, hcn]
      refine ⟨hPC1, ?_⟩
      intro q hq
      rcases List.mem_pair.mp hq with h | h <;> rw [h]
      · exact hW1np
      · exact hB
    | false =>
      have hppnp : pp ≠ np := by
        intro h; rw [h, hW1np] at hB; cases hB
      have hppp : pp ≠ p := by
        intro h; rw [h, hW1p] at hB; cases hB
      have hW1cols : (deriveNext W p np (orient.getD ci false) (orient.getD ni false)
          (labels.getD np 0) L).cols = 2 * L := by
        rw [deriveNext_cols]; exact hcols
      have hsafeW1 : rowSafe (deriveNext W p np (orient.getD ci false)
          (orient.getD ni false) (labels.getD np 0) L) p :=
        rowSafe_of_bound _ p N L hW1cols HN (hPC1.2.2.2.2 p hW1p)
      have hassigned := derivePrev_assigned
        (deriveNext W p np (orient.getD ci false) (orient.getD ni false)
          (labels.getD np 0) L) p pp (orient.getD ci false) (orient.getD pri false)
        (labels.getD pp 0) L hppp hW1cols hsafeW1
      have hPC2 : PCSpec N L
          (deriveNext W p np (orient.getD ci false) (orient.getD ni false)
            (labels.getD np 0) L)
          (derivePrev (deriveNext W p np (orient.getD ci false) (orient.getD ni false)
            (labels.getD np 0) L) p pp (orient.getD ci false) (orient.getD pri false)
            (labels.getD pp 0) L) [pp] := by
        refine ⟨derivePrev_cols _ _ _ _ _ _ _, ?_, ?_, List.nodup_singleton _, ?_⟩
        · intro r c hr
          exact derivePrev_get_other _ _ _ _ _ _ _ _ _ (by simpa using hr)
        · intro q hq
          rw [List.mem_singleton] at hq
          rw [hq]
          exact ⟨hB, hassigned, hppN⟩
        · refine bound_transfer _ _ N L [pp] (derivePrev_cols _ _ _ _ _ _ _) ?_ ?_
            (List.nodup_singleton pp) (hPC1.2.2.2.2) ?_
          · intro r c hr
            exact derivePrev_get_other _ _ _ _ _ _ _ _ _ (by simpa using hr)
          · intro q hq
            rw [List.mem_singleton] at hq
            rw [hq]
            exact ⟨hB, hassigned, hppN⟩
          · intro q hq
            rw [List.mem_singleton] at hq
            rw [hq]
            have hvals := hPC1.2.2.2.2 p hW1p
            have h3 := derivePrev_row_le
              (deriveNext W p np (orient.getD ci false) (orient.getD ni false)
                (labels.getD np 0) L) p pp (orient.getD ci false)
              (orient.getD pri false) (labels.getD pp 0) L
              ((N : Int) + 1 - ucount (deriveNext W p np (orient.getD ci false)
                (orient.getD ni false) (labels.getD np 0) L) N) hppp hvals
            intro c hc
            have h2 := h3 c hc
            omega
      have hred : processCurve labels order orient L p W =
          (derivePrev (deriveNext W p np (orient.getD ci false) (orient.getD ni false)
            (labels.getD np 0) L) p pp (orient.getD ci false) (orient.getD pri false)
            (labels.getD pp 0) L, [np, pp]) := by
        rw [hredbase]
        simp only [hA, hB, if_true, Bool.false_eq_true, if_false, List.append_nil,
          List.nil_append, List.singleton_append]
      rw [hred, hcn]
      have hcomb := PCSpec_comp hPC1 hPC2
      rw [List.singleton_append] at hcomb
      refine ⟨hcomb, ?_⟩
      intro q hq
      rcases List.mem_pair.mp hq with h | h <;> rw [h]
      · have hrow : ∀ c, (derivePrev (deriveNext W p np (orient.getD ci false)
            (orient.getD ni false) (labels.getD np 0) L) p pp (orient.getD ci false)
            (orient.getD pri false) (labels.getD pp 0) L).get np c =
            (deriveNext W p np (orient.getD ci false) (orient.getD ni false)
              (labels.getD np 0) L).get np c :=
          fun c => derivePrev_get_other _ _ _ _ _ _ _ _ _ (Ne.symm hppnp)
        rw [winding_num_assigned_congr _ _ _ (derivePrev_cols _ _ _ _ _ _ _) hrow]
        exact hW1np
      · exact hassigned


theorem processCurve_spec9 (labels order : List Nat) (orient : List Bool)
    (L p N : Nat) (W : Mat)
    (Horder : ∀ q ∈ order, q < N) (HN : (N : Int) + 2 < INVALID)
    (hcols : W.cols = 2 * L)
    (hp : winding_num_assigned W p = true)
    (hb : ∀ r, winding_num_assigned W r = true → ∀ c < 2 * L,
      W.get r c ≤ (N : Int) + 1 - ucount W N) :
    PCSpec N L W (processCurve labels order orient L p W).1
      (processCurve labels order orient L p W).2 ∧
    (∀ q ∈ curveNeighbors order orient p,
      winding_num_assigned (processCurve labels order orient L p W).1 q = true) := by
  cases hci : order.findIdx? (· == p) with
  | none =>
    have hred : processCurve labels order orient L p W = (W, []) := by
      simp [processCurve, hci]
    have hcn : curveNeighbors order orient p = [] := by
      simp [curveNeighbors, hci]
    rw [hred, hcn]
    exact ⟨PCSpec_refl N L W hb, fun q hq => absurd hq (List.not_mem_nil q)⟩
  | some ci =>
    exact processCurve_spec9_aux labels order orient L p N ci _ _ _ _ W hci rfl rfl
      rfl rfl Horder HN hcols hp hb

theorem processPatch_fold_shift (labels : List Nat) (orders : List (List Nat))
    (orients : List (List Bool)) (L p : Nat) (cs : List Nat) (W : Mat)
    (acc : List Nat) :
    cs.foldl (fun s c =>
      let t := processCurve labels (orders.getD c []) (orients.getD c []) L p s.1
      (t.1, s.2 ++ t.2)) (W, acc) =
    ((cs.foldl (fun s c =>
      let t := processCurve labels (orders.getD c []) (orients.getD c []) L p s.1
      (t.1, s.2 ++ t.2)) (W, [])).1,
     acc ++ (cs.foldl (fun s c =>
      let t := processCurve labels (orders.getD c []) (orients.getD c []) L p s.1
      (t.1, s.2 ++ t.2)) (W, [])).2) := by
  induction cs generalizing W acc with
  | nil => simp
  | cons c cs ih =>
    simp only [List.foldl_cons, List.nil_append]
    rw [ih ((processCurve labels (orders.getD c []) (orients.getD c []) L p W).1)
        (acc ++ (processCurve labels (orders.getD c []) (orients.getD c []) L p W).2),
      ih ((processCurve labels (orders.getD c []) (orients.getD c []) L p W).1)
        ((processCurve labels (orders.getD c []) (orients.getD c []) L p W).2)]
    simp [List.append_assoc]

theorem processPatch_go (labels : List Nat) (orders : List (List Nat))
    (orients : List (List Bool)) (L p N : Nat) (cs : List Nat) (W : Mat)
    (Horders : ∀ c q, q ∈ orders.getD c [] → q < N)
    (HN : (N : Int) + 2 < INVALID)
    (hcols : W.cols = 2 * L)
    (hp : winding_num_assigned W p = true)
    (hb : ∀ r, winding_num_assigned W r = true → ∀ c < 2 * L,
      W.get r c ≤ (N : Int) + 1 - ucount W N) :
    PCSpec N L W
      (cs.foldl (fun s c =>
        let t := processCurve labels (orders.getD c []) (orients.getD c []) L p s.1
        (t.1, s.2 ++ t.2)) (W, [])).1
      (cs.foldl (fun s c =>
        let t := processCurve labels (orders.getD c []) (orients.getD c []) L p s.1
        (t.1, s.2 ++ t.2)) (W, [])).2 ∧
    (∀ c ∈ cs, ∀ q ∈ curveNeighbors (orders.getD c []) (orients.getD c []) p,
      winding_num_assigned (cs.foldl (fun s c =>
        let t := processCurve labels (orders.getD c []) (orients.getD c []) L p s.1
        (t.1, s.2 ++ t.2)) (W, [])).1 q = true) := by
  induction cs generalizing W with
  | nil =>
    exact ⟨PCSpec_refl N L W hb, fun c hc => absurd hc (List.not_mem_nil c)⟩
  | cons c cs ih =>
    have h1 := processCurve_spec9 labels (orders.getD c []) (orients.getD c []) L p N W
      (Horders c) HN hcols hp hb
    have hcols1 : (processCurve labels (orders.getD c []) (orients.getD c []) L p W).1.cols
        = 2 * L := h1.1.1.trans hcols
    have hp1 := (PCSpec_mono h1.1 p hp).1
    have hih := ih ((processCurve labels (orders.getD c []) (orients.getD c []) L p W).1)
      hcols1 hp1 (h1.1.2.2.2.2)
    simp only [List.foldl_cons]
    rw [processPatch_fold_shift]
    constructor
    · exact PCSpec_comp h1.1 hih.1
    · intro c2 hc2 q hq
      rcases List.mem_cons.mp hc2 with h | h
      · rw [h] at hq
        exact (PCSpec_mono hih.1 q (h1.2 q hq)).1
      · exact hih.2 c2 h q hq

theorem processPatch_spec9 (labels : List Nat) (orders : List (List Nat))
    (orients : List (List Bool)) (pca : List (List Nat)) (L p N : Nat) (W : Mat)
    (Horders : ∀ c q, q ∈ orders.getD c [] → q < N)
    (HN : (N : Int) + 2 < INVALID)
    (hcols : W.cols = 2 * L)
    (hp : winding_num_assigned W p = true)
    (hb : ∀ r, winding_num_assigned W r = true → ∀ c < 2 * L,
      W.get r c ≤ (N : Int) + 1 - ucount W N) :
    PCSpec N L W (processPatch labels orders orients pca L p W).1
      (processPatch labels orders orients pca L p W).2 ∧
    (∀ q, stepRel orders orients pca p q →
      winding_num_assigned (processPatch labels orders orients pca L p W).1 q = true) := by
  have h := processPatch_go labels orders orients L p N (pca.getD p []) W Horders HN
    hcols hp hb
  refine ⟨h.1, ?_⟩
  rintro q ⟨c, hc, hq⟩
  exact h.2 c hc q hq


theorem bfsLoop_spec (labels : List Nat) (orders : List (List Nat))
    (orients : List (List Bool)) (pca : List (List Nat)) (L N : Nat)
    (fuel : Nat) (Q : List Nat) (W : Mat)
    (Horders : ∀ c q, q ∈ orders.getD c [] → q < N)
    (HN : (N : Int) + 2 < INVALID)
    (hcols : W.cols = 2 * L)
    (hQ : ∀ q ∈ Q, winding_num_assigned W q = true)
    (hb : ∀ r, winding_num_assigned W r = true → ∀ c < 2 * L,
      W.get r c ≤ (N : Int) + 1 - ucount W N)
    (hclose : ∀ r, winding_num_assigned W r = true → r ∈ Q ∨
      ∀ q, stepRel orders orients pca r q → winding_num_assigned W q = true)
    (hfuel : ucount W N + Q.length ≤ fuel) :
    (∀ r, winding_num_assigned W r = true →
      winding_num_assigned (bfsLoop labels orders orients pca L fuel Q W) r = true) ∧
    (∀ r, winding_num_assigned (bfsLoop labels orders orients pca L fuel Q W) r = true →
      ∀ q, stepRel orders orients pca r q →
        winding_num_assigned (bfsLoop labels orders orients pca L fuel Q W) q = true) ∧
    (bfsLoop labels orders orients pca L fuel Q W).cols = 2 * L := by
  induction fuel generalizing Q W with
  | zero =>
    have hQnil : Q = [] := by
      cases Q with
      | nil => rfl
      | cons a l => simp at hfuel
    subst hQnil
    simp only [bfsLoop]
    refine ⟨fun r hr => hr, ?_, hcols⟩
    intro r hr q hq
    rcases hclose r hr with h | h
    · exact absurd h (List.not_mem_nil r)
    · exact h q hq
  | succ fuel ih =>
    cases Q with
    | nil =>
      simp only [bfsLoop]
      refine ⟨fun r hr => hr, ?_, hcols⟩
      intro r hr q hq
      rcases hclose r hr with h | h
      · exact absurd h (List.not_mem_nil r)
      · exact h q hq
    | cons p Q =>
      have hp : winding_num_assigned W p = true := hQ p (List.mem_cons_self p Q)
      have spec := processPatch_spec9 labels orders orients pca L p N W Horders HN
        hcols hp hb
      obtain ⟨⟨hc1, hu1, hf1, hn1, hb1⟩, hstep⟩ := spec
      have hcols1 : (processPatch labels orders orients pca L p W).1.cols = 2 * L :=
        hc1.trans hcols
      have hmono1 : ∀ r, winding_num_assigned W r = true →
          winding_num_assigned (processPatch labels orders orients pca L p W).1 r =
            true := by
        intro r hr
        exact (PCSpec_mono ⟨hc1, hu1, hf1, hn1, hb1⟩ r hr).1
      have hnew1 : ∀ r, winding_num_assigned
          (processPatch labels orders orients pca L p W).1 r = true →
          winding_num_assigned W r = true ∨
            r ∈ (processPatch labels orders orients pca L p W).2 := by
        intro r hr
        by_cases hm : r ∈ (processPatch labels orders orients pca L p W).2
        · exact Or.inr hm
        · left
          rw [← winding_num_assigned_congr W _ r hc1 (fun c => hu1 r c hm)]
          exact hr
      have hQ1 : ∀ q ∈ Q ++ (processPatch labels orders orients pca L p W).2,
          winding_num_assigned (processPatch labels orders orients pca L p W).1 q =
            true := by
        intro q hq
        rcases List.mem_append.mp hq with h | h
        · exact hmono1 q (hQ q (List.mem_cons_of_mem p h))
        · exact (hf1 q h).2.1
      have hclose1 : ∀ r, winding_num_assigned
          (processPatch labels orders orients pca L p W).1 r = true →
          r ∈ Q ++ (processPatch labels orders orients pca L p W).2 ∨
          ∀ q, stepRel orders orients pca r q →
            winding_num_assigned (processPatch labels orders orients pca L p W).1 q =
              true := by
        intro r hr
        rcases hnew1 r hr with hrW | hrpc
        · rcases hclose r hrW with hmem | hcl
          · rcases List.mem_cons.mp hmem with heq | hmem2
            · right
              rw [heq]
              exact hstep
            · exact Or.inl (List.mem_append.mpr (Or.inl hmem2))
          · right
            intro q hq
            exact hmono1 q (hcl q hq)
        · exact Or.inl (List.mem_append.mpr (Or.inr hrpc))
      have hcount := ucount_after W (processPatch labels orders orients pca L p W).1 N
        (processPatch labels orders orients pca L p W).2 hc1 hu1 hf1 hn1
      have hfuel1 : ucount (processPatch labels orders orients pca L p W).1 N +
          (Q ++ (processPatch labels orders orients pca L p W).2).length ≤ fuel := by
        rw [List.length_append]
        simp only [List.length_cons] at hfuel
        omega
      have hres := ih (Q ++ (processPatch labels orders orients pca L p W).2)
        (processPatch labels orders orients pca L p W).1 hcols1 hQ1 hb1 hclose1 hfuel1
      simp only [bfsLoop]
      exact ⟨fun r hr => hres.1 r (hmono1 r hr), hres.2.1, hres.2.2⟩


theorem seedPatchW_cols (np nl op ol : Nat) (f : Bool) :
    (seedPatchW np nl op ol f).cols = 2 * nl := by
  cases f <;> rfl

theorem seedPatchW_outer_bound (np nl op ol : Nat) (f : Bool) (c : Nat) :
    -1 ≤ (seedPatchW np nl op ol f).get op c ∧
      (seedPatchW np nl op ol f).get op c ≤ 1 := by
  cases f <;>
    simp only [seedPatchW, Bool.false_eq_true, Bool.true_eq_false, if_true, if_false,
      ite_true, ite_false, Mat.get_set, Mat.get_setRowZero, Mat.get_const] <;>
  split_ifs <;> omega

theorem seedPatchW_get_ne (np nl op ol : Nat) (f : Bool) (r c : Nat) (h : r ≠ op) :
    (seedPatchW np nl op ol f).get r c = INVALID := by
  cases f <;>
    simp [seedPatchW, Mat.get_set, Mat.get_setRowZero, Mat.get_const, h]

theorem one_lt_INVALID : (1 : Int) < INVALID := by
  norm_num [INVALID]

theorem stepRel_of (orders : List (List Nat)) (orients : List (List Bool))
    (pca : List (List Nat)) (p q c : Nat) (h1 : c ∈ pca.getD p [])
    (h2 : q ∈ curveNeighbors (orders.getD c []) (orients.getD c []) p) :
    stepRel orders orients pca p q := ⟨c, h1, h2⟩

/-- Claim C9: under the precondition that every patch is reachable from the
seeded outer patch through the intersection-curve orderings (the step
relation induced by the per-patch adjacent curves and their cyclic orders),
the post-BFS completeness check of source line 317 never fails: after the
patch-wise BFS, no entry of `patch_W` is left at the `INVALID` sentinel. -/
theorem claim_C9 (labels : List Nat) (orders : List (List Nat))
    (orients : List (List Bool)) (pca : List (List Nat)) (N L outer : Nat)
    (flipped : Bool)
    (HL : 1 ≤ L) (HN : (N : Int) + 2 < INVALID)
    (Horders : ∀ c q, q ∈ orders.getD c [] → q < N)
    (Hreach : ∀ p, p < N → ReachableP orders orients pca outer p) :
    ∀ p, p < N → ∀ c, c < 2 * L →
      (runBFS labels orders orients pca N L outer flipped).get p c ≠ INVALID := by
  have hrun : runBFS labels orders orients pca N L outer flipped =
      bfsLoop labels orders orients pca L (N + 1) [outer]
        (seedPatchW N L outer (labels.getD outer 0) flipped) := rfl
  have hcols0 : (seedPatchW N L outer (labels.getD outer 0) flipped).cols = 2 * L :=
    seedPatchW_cols N L outer (labels.getD outer 0) flipped
  have houter : winding_num_assigned
      (seedPatchW N L outer (labels.getD outer 0) flipped) outer = true := by
    rw [winding_num_assigned_iff]
    intro c _hc
    have hbd := seedPatchW_outer_bound N L outer (labels.getD outer 0) flipped c
    have hI := one_lt_INVALID
    omega
  have hassigned_eq : ∀ r, winding_num_assigned
      (seedPatchW N L outer (labels.getD outer 0) flipped) r = true → r = outer := by
    intro r hr
    by_contra hne
    rw [winding_num_assigned_iff] at hr
    exact hr 0 (by omega) (seedPatchW_get_ne N L outer (labels.getD outer 0) flipped r 0 hne)
  have hble : ∀ r, winding_num_assigned
      (seedPatchW N L outer (labels.getD outer 0) flipped) r = true → ∀ c < 2 * L,
      (seedPatchW N L outer (labels.getD outer 0) flipped).get r c ≤
        (N : Int) + 1 - ucount (seedPatchW N L outer (labels.getD outer 0) flipped) N := by
    intro r hr c _hc
    rw [hassigned_eq r hr]
    have hbd := seedPatchW_outer_bound N L outer (labels.getD outer 0) flipped c
    have hle := ucount_le (seedPatchW N L outer (labels.getD outer 0) flipped) N
    omega
  have hspec := bfsLoop_spec labels orders orients pca L N (N + 1) [outer]
    (seedPatchW N L outer (labels.getD outer 0) flipped) Horders HN hcols0
    (by
      intro q hq
      rw [List.mem_singleton] at hq
      rw [hq]
      exact houter)
    hble
    (by
      intro r hr
      exact Or.inl (by rw [List.mem_singleton]; exact hassigned_eq r hr))
    (by
      have hle := ucount_le (seedPatchW N L outer (labels.getD outer 0) flipped) N
      simp only [List.length_singleton]
      omega)
  have hreach_assigned : ∀ r, ReachableP orders orients pca outer r →
      winding_num_assigned
        (bfsLoop labels orders orients pca L (N + 1) [outer]
          (seedPatchW N L outer (labels.getD outer 0) flipped)) r = true := by
    intro r hr
    induction hr with
    | refl => exact hspec.1 outer houter
    | tail h1 h2 ih => exact hspec.2.1 _ ih _ h2
  intro p hp c hc
  have hassigned := hreach_assigned p (Hreach p hp)
  rw [hrun]
  rw [winding_num_assigned_iff] at hassigned
  exact hassigned c (by rw [hspec.2.2]; exact hc)

theorem claim_C9_witness :
    (runBFS [0, 0, 0, 0] [[0, 1, 2, 3]] [[true, true, true, true]]
      [[0], [0], [0], [0]] 4 1 0 false).get 2 0 ≠ INVALID := by
  refine claim_C9 [0, 0, 0, 0] [[0, 1, 2, 3]] [[true, true, true, true]]
    [[0], [0], [0], [0]] 4 1 0 false (by decide) (by norm_num [INVALID])
    (by
      intro c q hq
      cases c with
      | zero => simp at hq; omega
      | succ c => simp at hq)
    ?_ 2 (by decide) 0 (by decide)
  intro p hp
  interval_cases p
  · exact Relation.ReflTransGen.refl
  · exact Relation.ReflTransGen.single
      (stepRel_of [[0, 1, 2, 3]] [[true, true, true, true]] [[0], [0], [0], [0]]
        0 1 0 (by decide) (by decide))
  · exact Relation.ReflTransGen.tail
      (Relation.ReflTransGen.single
        (stepRel_of [[0, 1, 2, 3]] [[true, true, true, true]] [[0], [0], [0], [0]]
          0 1 0 (by decide) (by decide)))
      (stepRel_of [[0, 1, 2, 3]] [[true, true, true, true]] [[0], [0], [0], [0]]
        1 2 0 (by decide) (by decide))
  · exact Relation.ReflTransGen.single
      (stepRel_of [[0, 1, 2, 3]] [[true, true, true, true]] [[0], [0], [0], [0]]
        0 3 0 (by decide) (by decide))


/-- Claim C8: the two-coloring odd-cycle check of
`propagate_winding_numbers_beta` is pure diagnostics computed before the
cell-wise BFS: the produced per-face result is identical to the pipeline
with the check omitted (first conjunct, for every input), so a detected
odd cycle never stops the propagation; and the check's per-edge step
colors an uncolored neighbor and enqueues it, records the traced cycle
path (the reversed parent chain of the current cell followed by the
neighbor's parent chain) exactly when a previously colored cell is reached
with the wrong color, and leaves a correctly colored neighbor untouched. -/
theorem claim_C8 :
    (∀ (O : Oracles) (V : List Vec3) (F : List Face) (labels : List Nat),
      propagate_winding_numbers_beta O V F labels =
        propagate_winding_numbers_beta_unchecked O V F labels) ∧
    (∀ (num_cells curr : Nat) (curr_label : Int) (st : CheckState) (e : CellEdge),
      (st.colors.getD e.1 0 = 0 →
        colorNeighbor num_cells curr curr_label st e =
          (⟨st.colors.set e.1 (curr_label * -1), st.parents.set e.1 (curr : Int),
            st.conflicts⟩, [e.1])) ∧
      (st.colors.getD e.1 0 ≠ 0 → st.colors.getD e.1 0 ≠ curr_label * -1 →
        colorNeighbor num_cells curr curr_label st e =
          (⟨st.colors, st.parents, st.conflicts ++
            [(traceParents st.parents num_cells curr).reverse ++
              traceParents st.parents num_cells e.1]⟩, [])) ∧
      (st.colors.getD e.1 0 = curr_label * -1 → st.colors.getD e.1 0 ≠ 0 →
        colorNeighbor num_cells curr curr_label st e = (st, []))) := by
  constructor
  · intro O V F labels
    rfl
  · intro num_cells curr curr_label st e
    refine ⟨?_, ?_, ?_⟩
    · intro h1
      simp only [colorNeighbor]
      rw [if_pos h1]
    · intro h1 h2
      simp only [colorNeighbor]
      rw [if_neg h1, if_pos h2]
    · intro h1 h2
      simp only [colorNeighbor]
      rw [if_neg h2, if_neg (not_not_intro h1)]

/-- Witness for C8: the check-free pipeline equality on mesh 3, and a
concrete wrong-color encounter recording the traced path `[0, 1, 0]`. -/
theorem claim_C8_witness :
    propagate_winding_numbers_beta O3 V2 F3 labels3 =
      propagate_winding_numbers_beta_unchecked O3 V2 F3 labels3 ∧
    (colorNeighbor 2 0 1 ⟨[1, 1], [0, 0], []⟩ (1, false, 0)).1.conflicts = [[0, 1, 0]] := by
  refine ⟨claim_C8.1 O3 V2 F3 labels3, ?_⟩
  have h := (claim_C8.2 2 0 1 ⟨[1, 1], [0, 0], []⟩ (1, false, 0)).2.1 (by decide) (by decide)
  rw [h]
  decide

end IglWinding
